import Mathlib

/-!
Shallow embedding of the weighting-and-scoring engine of
`backend/app/engine.py` (indicator_calculator repository).

Matrices are `Fin n → Fin p → ℝ` (row index first, matching numpy's
`x[i, j]`); machine floats are modelled by exact reals, so "within
floating tolerance" statements become exact equalities.  Python dicts
(`weights`, `dimension2Weights`, the standardization parameter maps) are
modelled as association lists with Python's insert-or-update semantics.
The eigendecompositions delegated by the code to the external library
(`np.linalg.eigh`, `np.linalg.eig`) are modelled as explicit inputs of
the corresponding functions: every piece of logic of `engine.py` itself
(sorting, clipping, component selection, sign flipping, normalization)
is embedded.
-/

namespace Engine

/-- `Direction` literal of `types.py`: `"positive" | "negative"`. -/
inductive Direction where
  | positive
  | negative
deriving DecidableEq

/-- The fields of `IndicatorRecord` (`types.py`) that the engine reads:
`key`, `dimension2Key` and `direction` (`name`/`unit` are never used by
`engine.py`). -/
structure Ind where
  key : String
  dimension2Key : String
  direction : Direction

/-- The typed error kinds of the engine's `ComputeError` raises
(spec section 7 taxonomy). -/
inductive CErr where
  | degenerateColumn
  | entropyAllZeroDiversity
  | pcaInsufficientSamples
  | pcaZeroVariance
  | pcaInvalidWeights
  | ahpNonSquareMatrix
  | ahpEmptyMatrix
  | ahpZeroWeightVector
deriving DecidableEq

/-- An n×p numeric matrix, `x i j` = row `i`, column `j`. -/
abbrev Mat (n p : ℕ) := Fin n → Fin p → ℝ

/-! ## Python dict model

A Python `dict[str, float]` is an association list in insertion order;
`d[k] = v` updates the existing entry in place or appends a fresh one,
`d.get(k, dflt)` returns the value of the (unique) entry with key `k`.
-/

abbrev Dict := List (String × ℝ)

/-- `k in d`. -/
def dmem (d : Dict) (k : String) : Bool :=
  d.any (fun q => q.1 = k)

/-- `d[k] = v`: update in place if present, else append. -/
def dinsert (d : Dict) (k : String) (v : ℝ) : Dict :=
  if dmem d k then d.map (fun q => if q.1 = k then (k, v) else q) else d ++ [(k, v)]

/-- `d.get(k)`, `None` when absent. -/
def dget? (d : Dict) (k : String) : Option ℝ :=
  (d.find? (fun q => decide (q.1 = k))).map Prod.snd

/-- `d.get(k, 0.0)`. -/
def dget0 (d : Dict) (k : String) : ℝ :=
  (dget? d k).getD 0

/-- `sum(d.values())`. -/
def dvalsSum (d : Dict) : ℝ :=
  (d.map Prod.snd).sum

/-- `d[k] = d.get(k, 0.0) + v` (the accumulation step of
`build_dimension2_weights`). -/
def daccum (d : Dict) (k : String) (v : ℝ) : Dict :=
  dinsert d k (dget0 d k + v)

/-- The dict `{keys[i]: vals[i] for i in ...}` built in index order. -/
def dictOfFn {p : ℕ} (keys : Fin p → String) (vals : Fin p → ℝ) : Dict :=
  (List.ofFn (fun i => (keys i, vals i))).foldl (fun d q => dinsert d q.1 q.2) []

/-! ## Direction normalizer and standardization (`engine.py` lines 17-47) -/

/-- `_apply_direction`: negate the columns whose direction is `"negative"`. -/
def applyDirection {n p : ℕ} (values : Mat n p) (directions : Fin p → Direction) : Mat n p :=
  fun i j => if directions j = Direction.negative then -(values i j) else values i j

/-- Column-wise minimum over the (nonempty) rows: `np.nanmin(x, axis=0)`
(the spec guarantees no missing values, so `nanmin` is plain `min`). -/
noncomputable def colMin {n p : ℕ} (x : Mat (n + 1) p) : Fin p → ℝ :=
  fun j => Finset.univ.inf' Finset.univ_nonempty (fun i => x i j)

/-- Column-wise maximum over the rows: `np.nanmax(x, axis=0)`. -/
noncomputable def colMax {n p : ℕ} (x : Mat (n + 1) p) : Fin p → ℝ :=
  fun j => Finset.univ.sup' Finset.univ_nonempty (fun i => x i j)

/-- `_minmax_fit`: per-column min and max. -/
noncomputable def minmaxFit {n p : ℕ} (x : Mat (n + 1) p) : (Fin p → ℝ) × (Fin p → ℝ) :=
  (colMin x, colMax x)

/-- `_minmax_transform`: `(x - min_v) / (max_v - min_v)`, raising
`DegenerateColumn` when some column has zero range. -/
noncomputable def minmaxTransform {n p : ℕ} (x : Mat n p) (min_v max_v : Fin p → ℝ) :
    Except CErr (Mat n p) :=
  if ∃ j, max_v j - min_v j = 0 then Except.error CErr.degenerateColumn
  else Except.ok (fun i j => (x i j - min_v j) / (max_v j - min_v j))

/-- Column mean: `np.nanmean(x, axis=0)`. -/
noncomputable def colMean {n p : ℕ} (x : Mat n p) : Fin p → ℝ :=
  fun j => (∑ i, x i j) / n

/-- Column sample standard deviation with `ddof=1`:
`np.nanstd(x, axis=0, ddof=1)`. -/
noncomputable def colStd {n p : ℕ} (x : Mat n p) : Fin p → ℝ :=
  fun j => Real.sqrt ((∑ i, (x i j - colMean x j) ^ 2) / (n - 1))

/-- `_zscore_fit`: per-column mean and sample standard deviation. -/
noncomputable def zscoreFit {n p : ℕ} (x : Mat n p) : (Fin p → ℝ) × (Fin p → ℝ) :=
  (colMean x, colStd x)

/-- `_zscore_transform`: `(x - mean) / std`, raising `DegenerateColumn`
when some column has `std == 0`. -/
noncomputable def zscoreTransform {n p : ℕ} (x : Mat n p) (mean std : Fin p → ℝ) :
    Except CErr (Mat n p) :=
  if ∃ j, std j = 0 then Except.error CErr.degenerateColumn
  else Except.ok (fun i j => (x i j - mean j) / std j)

/-! ## Entropy weighting (`engine.py` lines 50-69) -/

/-- `np.sum(z, axis=0)` inside `_entropy_weights`. -/
noncomputable def entColSum {n p : ℕ} (z : Mat n p) : Fin p → ℝ :=
  fun j => ∑ i, z i j

/-- `np.where(col_sum == 0, 1.0, col_sum)`. -/
noncomputable def entColSumAdj {n p : ℕ} (z : Mat n p) : Fin p → ℝ :=
  fun j => if entColSum z j = 0 then 1 else entColSum z j

/-- `pij = z / col_sum`. -/
noncomputable def entPij {n p : ℕ} (z : Mat n p) : Mat n p :=
  fun i j => z i j / entColSumAdj z j

/-- `logp = np.where(pij > 0, np.log(pij), 0.0)`. -/
noncomputable def entLogp {n p : ℕ} (z : Mat n p) : Mat n p :=
  fun i j => if 0 < entPij z i j then Real.log (entPij z i j) else 0

/-- `k = 1.0 / math.log(n) if n > 1 else 0.0`. -/
noncomputable def entK (n : ℕ) : ℝ :=
  if 1 < n then 1 / Real.log n else 0

/-- `e = -k * np.sum(pij * logp, axis=0)`. -/
noncomputable def entE {n p : ℕ} (z : Mat n p) : Fin p → ℝ :=
  fun j => -entK n * ∑ i, entPij z i j * entLogp z i j

/-- `d = 1.0 - e` (the `np.where(np.isfinite(d), d, 0.0)` guard is the
identity over exact reals, which are always finite). -/
noncomputable def entD {n p : ℕ} (z : Mat n p) : Fin p → ℝ :=
  fun j => 1 - entE z j

/-- `_entropy_weights`: diversity-normalized weights, raising
`EntropyAllZeroDiversity` when the total diversity is `<= 0`. -/
noncomputable def entropyWeights {n p : ℕ} (z : Mat n p) : Except CErr (Fin p → ℝ) :=
  if (∑ j, entD z j) ≤ 0 then Except.error CErr.entropyAllZeroDiversity
  else Except.ok (fun j => entD z j / ∑ j, entD z j)

/-! ## PCA weighting (`engine.py` lines 72-109)

`np.cov` and the symmetric eigendecomposition `np.linalg.eigh` are
external library calls; `covMatrix` embeds the covariance computation,
and `pcaWeights` takes the eigendecomposition output (`eigvals`
ascending with associated eigenvector columns `eigvecs[:, l]`) as
explicit inputs.  Everything from line 85 on (descending sort, clipping,
cumulative ratio, `searchsorted` component selection, squared-loading
weights) is embedded.
-/

/-- `np.cov(z, rowvar=False, ddof=1)`: sample covariance of the columns. -/
noncomputable def covMatrix {n p : ℕ} (z : Mat n p) : Fin p → Fin p → ℝ :=
  fun j l => (∑ i, (z i j - colMean z j) * (z i l - colMean z l)) / (n - 1)

/-- Lines 85-87: the permutation `np.argsort(eigvals)[::-1]` reordering
the eigenpairs by eigenvalue descending (`Tuple.sort` sorts ascending;
composing with `Fin.rev` reverses). -/
noncomputable def pcaOrder {p : ℕ} (eigvals : Fin p → ℝ) : Fin p → Fin p :=
  fun l => Tuple.sort eigvals l.rev

/-- Line 89: eigenvalues sorted descending and clipped at 0
(`np.where(eigvals < 0, 0.0, eigvals)`). -/
noncomputable def pcaEv {p : ℕ} (eigvals : Fin p → ℝ) : Fin p → ℝ :=
  fun l => if eigvals (pcaOrder eigvals l) < 0 then 0 else eigvals (pcaOrder eigvals l)

/-- Line 94: cumulative explained-variance ratio
`cum[l] = np.cumsum(eigvals)[l] / total` (0-based index, as a function
of a natural index). -/
noncomputable def pcaCum {p : ℕ} (eigvals : Fin p → ℝ) (l : ℕ) : ℝ :=
  (∑ i with i.val ≤ l, pcaEv eigvals i) / ∑ i, pcaEv eigvals i

/-- Line 95: `np.searchsorted(cum, threshold)` — for the nondecreasing
`cum` produced here, the left insertion point is the number of entries
strictly below the threshold. -/
noncomputable def pcaSearchSorted {p : ℕ} (eigvals : Fin p → ℝ) (threshold : ℝ) : ℕ :=
  (Finset.univ.filter (fun l : Fin p => pcaCum eigvals l.val < threshold)).card

/-- Lines 95-96: selected component count, clamped to `[1, p]`. -/
noncomputable def pcaK {p : ℕ} (eigvals : Fin p → ℝ) (threshold : ℝ) : ℕ :=
  max 1 (min (pcaSearchSorted eigvals threshold + 1) p)

/-- The `PcaResult` dataclass. -/
structure PcaResult (p : ℕ) where
  weights : Fin p → ℝ
  k : ℕ
  cumulative : ℝ

/-- Lines 100-104: `w_raw[j] = Σ_{l<k} eigvecs[j, l]² * λ_l²` over the
descending-sorted clipped eigenpairs. -/
noncomputable def pcaWRaw {p : ℕ} (eigvals : Fin p → ℝ) (eigvecs : Fin p → Fin p → ℝ)
    (k : ℕ) : Fin p → ℝ :=
  fun j => ∑ l with l.val < k, (eigvecs j (pcaOrder eigvals l)) ^ 2 * (pcaEv eigvals l) ^ 2

/-- `_pca_weights`: `nrows` is `z.shape[0]`; `eigvals`/`eigvecs` model
the `np.linalg.eigh(c)` output for the covariance matrix `c`. -/
noncomputable def pcaWeights {p : ℕ} (nrows : ℕ) (eigvals : Fin p → ℝ)
    (eigvecs : Fin p → Fin p → ℝ) (threshold : ℝ) : Except CErr (PcaResult p) :=
  if nrows < 2 then Except.error CErr.pcaInsufficientSamples
  else if (∑ i, pcaEv eigvals i) ≤ 0 then Except.error CErr.pcaZeroVariance
  else if (∑ j, pcaWRaw eigvals eigvecs (pcaK eigvals threshold) j) ≤ 0 then
    Except.error CErr.pcaInvalidWeights
  else Except.ok
    { weights := fun j => pcaWRaw eigvals eigvecs (pcaK eigvals threshold) j
        / ∑ j, pcaWRaw eigvals eigvecs (pcaK eigvals threshold) j
      k := pcaK eigvals threshold
      cumulative := pcaCum eigvals (pcaK eigvals threshold - 1) }

/-! ## AHP weighting (`engine.py` lines 112-152)

`np.linalg.eig(matrix)` is an external library call; `ahpWeights` takes
its output (`eigvals : Fin c → ℂ` with eigenvector columns
`eigvecs[:, l]`) as explicit inputs alongside the `r × c` comparison
matrix, and embeds the argmax selection, real part, per-entry sign flip
and normalization.
-/

/-- `np.argmax(eigvals.real)`: the first index attaining the maximal
real part (the minimum of the attaining set). -/
noncomputable def ahpArgmax {c : ℕ} (hc : 0 < c) (eigvals : Fin c → ℂ) : Fin c :=
  have : Nonempty (Fin c) := Fin.pos_iff_nonempty.mp hc
  (Finset.univ.filter (fun i : Fin c => ∀ l, (eigvals l).re ≤ (eigvals i).re)).min'
    (by
      obtain ⟨b, _, hb⟩ := Finset.exists_max_image Finset.univ
        (fun i : Fin c => (eigvals i).re) Finset.univ_nonempty
      exact ⟨b, Finset.mem_filter.mpr ⟨Finset.mem_univ b, fun l => hb l (Finset.mem_univ l)⟩⟩)

/-- Line 124: `vec = np.where(vec < 0, -vec, vec)` applied to the
real part of the selected eigenvector column. -/
noncomputable def ahpVec {c : ℕ} (hc : 0 < c) (eigvals : Fin c → ℂ)
    (eigvecs : Fin c → Fin c → ℂ) : Fin c → ℝ :=
  fun j =>
    if (eigvecs j (ahpArgmax hc eigvals)).re < 0 then -(eigvecs j (ahpArgmax hc eigvals)).re
    else (eigvecs j (ahpArgmax hc eigvals)).re

/-- Lines 133-150: the fixed Random Index lookup table,
`ri_table.get(n, 1.59)`. -/
noncomputable def riTable (n : ℕ) : ℝ :=
  match n with
  | 1 => 0
  | 2 => 0
  | 3 => 0.58
  | 4 => 0.9
  | 5 => 1.12
  | 6 => 1.24
  | 7 => 1.32
  | 8 => 1.41
  | 9 => 1.45
  | 10 => 1.49
  | 11 => 1.51
  | 12 => 1.48
  | 13 => 1.56
  | 14 => 1.57
  | 15 => 1.59
  | _ => 1.59

/-- `lambda_max = float(eigvals.real[idx])`. -/
noncomputable def ahpLambdaMax {c : ℕ} (hc : 0 < c) (eigvals : Fin c → ℂ) : ℝ :=
  (eigvals (ahpArgmax hc eigvals)).re

/-- Lines 129-131: `CI = (lambda_max - n)/(n - 1)` for `n > 1`, else 0. -/
noncomputable def ahpCI {c : ℕ} (hc : 0 < c) (eigvals : Fin c → ℂ) : ℝ :=
  if 1 < c then (ahpLambdaMax hc eigvals - c) / (c - 1) else 0

/-- Line 151: `CR = 0.0 if ri == 0 else ci / ri`. -/
noncomputable def ahpCR {c : ℕ} (hc : 0 < c) (eigvals : Fin c → ℂ) : ℝ :=
  if riTable c = 0 then 0 else ahpCI hc eigvals / riTable c

/-- `_ahp_weights` on an `r × c` comparison matrix: returns
`(weights, lambda_max, CI, CR)`. -/
noncomputable def ahpWeights {r c : ℕ} (_matrix : Fin r → Fin c → ℝ)
    (eigvals : Fin c → ℂ) (eigvecs : Fin c → Fin c → ℂ) :
    Except CErr ((Fin c → ℝ) × ℝ × ℝ × ℝ) :=
  if r ≠ c then Except.error CErr.ahpNonSquareMatrix
  else if hc : c = 0 then Except.error CErr.ahpEmptyMatrix
  else if (∑ j, ahpVec (Nat.pos_of_ne_zero hc) eigvals eigvecs j) = 0 then
    Except.error CErr.ahpZeroWeightVector
  else Except.ok
    (fun j => ahpVec (Nat.pos_of_ne_zero hc) eigvals eigvecs j
        / ∑ j, ahpVec (Nat.pos_of_ne_zero hc) eigvals eigvecs j,
      ahpLambdaMax (Nat.pos_of_ne_zero hc) eigvals,
      ahpCI (Nat.pos_of_ne_zero hc) eigvals,
      ahpCR (Nat.pos_of_ne_zero hc) eigvals)

/-! ## Scaler (`engine.py` lines 192-196) -/

/-- `scale_0_100`: affine map of raw scores onto the 0-100 index,
constant 50 when the frozen boundaries coincide. -/
noncomputable def scale_0_100 {n : ℕ} (values : Fin n → ℝ) (vmin vmax : ℝ) : Fin n → ℝ :=
  if vmax - vmin = 0 then fun _ => 50
  else fun i => (values i - vmin) / (vmax - vmin) * 100

/-! ## Dimension aggregator and scores (`engine.py` lines 155-189) -/

/-- `ind["dimension2Key"] or "default"`: Python's `or` falls back on the
empty (falsy) string. -/
def grpOf (i : Ind) : String :=
  if i.dimension2Key = "" then "default" else i.dimension2Key

/-- `build_dimension2_weights`: fold the indicators, accumulating
`weights.get(key, 0.0)` into the entry of the indicator's group. -/
def build_dimension2_weights (indicators : List Ind) (weights : Dict) : Dict :=
  indicators.foldl (fun dim i => daccum dim (grpOf i) (dget0 weights i.key)) []

/-- The `key_to_dim` lookup of `compute_scores`:
`{i["key"]: (i["dimension2Key"] or "default")}.get(k, "default")` — in a
dict comprehension a later record with the same key overwrites an
earlier one, so the last match wins. -/
def keyToDim (indicators : List Ind) (k : String) : String :=
  match indicators.reverse.find? (fun i => decide (i.key = k)) with
  | some i => grpOf i
  | none => "default"

/-- The output of `compute_scores`: the raw score vector and the
per-group sub-score vectors (`sub_scores` dict, as a partial map from
group key; a group is absent exactly when its aggregated weight is
`<= 0`, mirroring the `continue`). -/
structure Scores (n : ℕ) where
  scoreRaw : Fin n → ℝ
  subScores : String → Option (Fin n → ℝ)

/-- The weight array `w = np.array([weights[k] for k in indicator_keys])`.
At every call site the dict's key set contains `indicator_keys` (the
dicts are built from it), so the lookup is total there; absent keys are
read as 0. -/
def wArr {p : ℕ} (weights : Dict) (keys : Fin p → String) : Fin p → ℝ :=
  fun j => dget0 weights (keys j)

/-- The aggregated weight `wg = np.sum(w[idxs])` of the group `g`. -/
def wGroup {p : ℕ} (weights : Dict) (keys : Fin p → String) (indicators : List Ind)
    (g : String) : ℝ :=
  ∑ j with keyToDim indicators (keys j) = g, wArr weights keys j

/-- `compute_scores` (`engine.py` lines 164-189). -/
noncomputable def compute_scores {n p : ℕ} (z : Mat n p) (keys : Fin p → String)
    (indicators : List Ind) (weights : Dict) : Scores n where
  scoreRaw := fun i => ∑ j, z i j * wArr weights keys j
  subScores := fun g =>
    if (∃ j, keyToDim indicators (keys j) = g) ∧ ¬ wGroup weights keys indicators g ≤ 0 then
      some (fun i => ∑ j with keyToDim indicators (keys j) = g,
        z i j * (wArr weights keys j / wGroup weights keys indicators g))
    else none

/-- Row minimum of a score vector: `np.min(v)`. -/
noncomputable def rowMin {n : ℕ} (v : Fin (n + 1) → ℝ) : ℝ :=
  Finset.univ.inf' Finset.univ_nonempty v

/-- Row maximum of a score vector: `np.max(v)`. -/
noncomputable def rowMax {n : ℕ} (v : Fin (n + 1) → ℝ) : ℝ :=
  Finset.univ.sup' Finset.univ_nonempty v

/-! ## Model record (`types.py` `WeightModelRecord`, engine-relevant fields) -/

/-- `WeightMethod` literal. -/
inductive Method where
  | entropy
  | pca
  | ahp
deriving DecidableEq

/-- The tagged `StandardizationParams` union. -/
inductive Standardization where
  | minmax (min max : Dict)
  | zscore (mean std : Dict)

/-- The `scaling` entry as `apply_weight_model` reads it defensively:
each bound may be absent (`scaling.get("scoreMin", ...)`,
`subScoreMin.get(g, ...)`). `train_weight_model` always fills every
field for the groups present in `sub_scores`. -/
structure Scaling where
  scoreMin : Option ℝ
  scoreMax : Option ℝ
  subScoreMin : String → Option ℝ
  subScoreMax : String → Option ℝ

/-- The engine-relevant fields of the trained model record (`id`,
`name`, `createdAt`, `trainedOnDatasetIds` are opaque bookkeeping). -/
structure Model (p : ℕ) where
  method : Method
  indicatorKeys : Fin p → String
  weights : Dict
  dimension2Weights : Dict
  standardization : Standardization
  scaling : Option Scaling
  pcaInfo : Option (ℕ × ℝ × ℝ)
  ahpInfo : Option (ℝ × ℝ × ℝ)

/-! ## Model trainer (`engine.py` lines 199-278) -/

/-- The method dispatch of `train_weight_model` (lines 211-251): returns
the standardized training matrix `z`, the weight vector, the stored
standardization params and the optional diagnostics.  `pcaEigvals` /
`pcaEigvecs` model `np.linalg.eigh(np.cov(z, ...))` and `ahpEigvals` /
`ahpEigvecs` model `np.linalg.eig(m)` for the supplied `p × p`
comparison matrix (the documented shape: `n_indicators × n_indicators`). -/
noncomputable def trainCore {n p : ℕ} (method : Method) (keys : Fin p → String)
    (x_train : Mat (n + 1) p) (directions : Fin p → Direction)
    (pcaEigvals : Fin p → ℝ) (pcaEigvecs : Fin p → Fin p → ℝ) (threshold : ℝ)
    (ahpMatrix : Fin p → Fin p → ℝ) (ahpEigvals : Fin p → ℂ)
    (ahpEigvecs : Fin p → Fin p → ℂ) :
    Except CErr (Mat (n + 1) p × (Fin p → ℝ) × Standardization
      × Option (ℕ × ℝ × ℝ) × Option (ℝ × ℝ × ℝ)) :=
  let x := applyDirection x_train directions
  match method with
  | Method.entropy =>
    let mn := colMin x
    let mx := colMax x
    (minmaxTransform x mn mx).bind fun z =>
    (entropyWeights z).map fun w_vec =>
      (z, w_vec, Standardization.minmax (dictOfFn keys mn) (dictOfFn keys mx), none, none)
  | Method.pca =>
    let mean := colMean x
    let std := colStd x
    (zscoreTransform x mean std).bind fun z =>
    (pcaWeights (n + 1) pcaEigvals pcaEigvecs threshold).map fun res =>
      (z, res.weights, Standardization.zscore (dictOfFn keys mean) (dictOfFn keys std),
        some (res.k, res.cumulative, threshold), none)
  | Method.ahp =>
    let mean := colMean x
    let std := colStd x
    (zscoreTransform x mean std).bind fun z =>
    (ahpWeights ahpMatrix ahpEigvals ahpEigvecs).map fun res =>
      (z, res.1, Standardization.zscore (dictOfFn keys mean) (dictOfFn keys std),
        none, some res.2)

/-- Lines 253-278: assemble the frozen model record from the method
dispatch output — build the weight dicts, score the training matrix and
capture the score boundaries as `ScalingParams`. -/
noncomputable def assembleModel {n p : ℕ} (method : Method) (keys : Fin p → String)
    (indicators : List Ind)
    (core : Mat (n + 1) p × (Fin p → ℝ) × Standardization
      × Option (ℕ × ℝ × ℝ) × Option (ℝ × ℝ × ℝ)) : Model p :=
  let z := core.1
  let weights := dictOfFn keys core.2.1
  let sc := compute_scores z keys indicators weights
  { method := method
    indicatorKeys := keys
    weights := weights
    dimension2Weights := build_dimension2_weights indicators weights
    standardization := core.2.2.1
    scaling := some
      { scoreMin := some (rowMin sc.scoreRaw)
        scoreMax := some (rowMax sc.scoreRaw)
        subScoreMin := fun g => (sc.subScores g).map rowMin
        subScoreMax := fun g => (sc.subScores g).map rowMax }
    pcaInfo := core.2.2.2.1
    ahpInfo := core.2.2.2.2 }

/-- `train_weight_model`. -/
noncomputable def train_weight_model {n p : ℕ} (method : Method) (keys : Fin p → String)
    (indicators : List Ind) (x_train : Mat (n + 1) p) (directions : Fin p → Direction)
    (pcaEigvals : Fin p → ℝ) (pcaEigvecs : Fin p → Fin p → ℝ) (threshold : ℝ)
    (ahpMatrix : Fin p → Fin p → ℝ) (ahpEigvals : Fin p → ℂ)
    (ahpEigvecs : Fin p → Fin p → ℂ) : Except CErr (Model p) :=
  (trainCore method keys x_train directions pcaEigvals pcaEigvecs threshold
    ahpMatrix ahpEigvals ahpEigvecs).map (assembleModel method keys indicators)

/-! ## Model applier (`engine.py` lines 281-320) -/

/-- Lines 292-302: rebuild the per-column parameter arrays from the
stored dicts and transform the new matrix with the frozen parameters. -/
noncomputable def applyStandardization {n p : ℕ} (std : Standardization)
    (keys : Fin p → String) (x2 : Mat n p) : Except CErr (Mat n p) :=
  match std with
  | Standardization.minmax mn mx =>
    minmaxTransform x2 (fun j => dget0 mn (keys j)) (fun j => dget0 mx (keys j))
  | Standardization.zscore mean std =>
    zscoreTransform x2 (fun j => dget0 mean (keys j)) (fun j => dget0 std (keys j))

/-- Lines 307-309: resolve the overall score boundaries,
`scaling.get("scoreMin", np.min(score_raw))` with
`scaling = model.get("scaling") or {}`. -/
noncomputable def resolvedScoreBounds {n : ℕ} (scaling : Option Scaling)
    (scoreRaw : Fin (n + 1) → ℝ) : ℝ × ℝ :=
  ((scaling.bind Scaling.scoreMin).getD (rowMin scoreRaw),
   (scaling.bind Scaling.scoreMax).getD (rowMax scoreRaw))

/-- `apply_weight_model`: replay direction normalization, frozen
standardization, frozen weights and frozen scaling boundaries on a new
matrix. -/
noncomputable def apply_weight_model {n p : ℕ} (model : Model p) (indicators : List Ind)
    (x : Mat (n + 1) p) (directions : Fin p → Direction) :
    Except CErr (Mat (n + 1) p × (Fin (n + 1) → ℝ)
      × (String → Option (Fin (n + 1) → ℝ)) × (String → Option (Fin (n + 1) → ℝ))) :=
  let keys := model.indicatorKeys
  let x2 := applyDirection x directions
  (applyStandardization model.standardization keys x2).map fun z =>
    let sc := compute_scores z keys indicators model.weights
    let bounds := resolvedScoreBounds model.scaling sc.scoreRaw
    let _index_0_100 := scale_0_100 sc.scoreRaw bounds.1 bounds.2
    let subIndex : String → Option (Fin (n + 1) → ℝ) := fun g =>
      (sc.subScores g).map fun v =>
        let vmin := ((model.scaling.bind (fun s => s.subScoreMin g)).getD (rowMin v))
        let vmax := ((model.scaling.bind (fun s => s.subScoreMax g)).getD (rowMax v))
        scale_0_100 v vmin vmax
    (z, sc.scoreRaw, sc.subScores, subIndex)

/-! ## Dict lemmas -/

theorem dmem_iff {d : Dict} {k : String} : dmem d k = true ↔ k ∈ d.map Prod.fst := by
  simp [dmem, List.any_eq_true, List.mem_map]

theorem dinsert_of_not_mem {d : Dict} {k : String} (h : k ∉ d.map Prod.fst) (v : ℝ) :
    dinsert d k v = d ++ [(k, v)] := by
  have : dmem d k = false := by
    cases hb : dmem d k
    · rfl
    · exact absurd (dmem_iff.mp hb) h
  simp [dinsert, this]

theorem foldl_dinsert_of_nodup (l : List (String × ℝ)) (d : Dict)
    (h : ((d ++ l).map Prod.fst).Nodup) :
    l.foldl (fun d q => dinsert d q.1 q.2) d = d ++ l := by
  induction l generalizing d with
  | nil => simp
  | cons q l ih =>
    have hk : q.1 ∉ d.map Prod.fst := by
      intro hq
      rw [List.map_append, List.nodup_append] at h
      exact h.2.2 hq (by simp)
    have hstep : dinsert d q.1 q.2 = d ++ [q] := by
      rw [dinsert_of_not_mem hk]
    have h' : (((d ++ [q]) ++ l).map Prod.fst).Nodup := by
      simpa [List.append_assoc] using h
    calc (q :: l).foldl (fun d q => dinsert d q.1 q.2) d
        = l.foldl (fun d q => dinsert d q.1 q.2) (dinsert d q.1 q.2) := rfl
      _ = (d ++ [q]) ++ l := by rw [hstep]; exact ih (d ++ [q]) h'
      _ = d ++ (q :: l) := by simp

/-- With pairwise-distinct keys every insert is fresh, so the built dict
is just the key/value list itself. -/
theorem dictOfFn_eq_ofFn {p : ℕ} {keys : Fin p → String} (vals : Fin p → ℝ)
    (hinj : Function.Injective keys) :
    dictOfFn keys vals = List.ofFn (fun i => (keys i, vals i)) := by
  have h : ((([] : Dict) ++ List.ofFn (fun i => (keys i, vals i))).map Prod.fst).Nodup := by
    simp only [List.nil_append, List.map_ofFn]
    exact List.nodup_ofFn.mpr hinj
  simpa [dictOfFn] using foldl_dinsert_of_nodup (List.ofFn (fun i => (keys i, vals i))) [] h

theorem dget?_ofFn {p : ℕ} {keys : Fin p → String} (vals : Fin p → ℝ)
    (hinj : Function.Injective keys) (j : Fin p) :
    dget? (List.ofFn (fun i => (keys i, vals i))) (keys j) = some (vals j) := by
  induction p with
  | zero => exact absurd j.2 (Nat.not_lt_zero _)
  | succ p ih =>
    rw [List.ofFn_succ]
    rcases Fin.eq_zero_or_eq_succ j with hj | ⟨i, hj⟩
    · subst hj
      simp [dget?, List.find?]
    · subst hj
      have hne : keys 0 ≠ keys i.succ := by
        intro hkeq
        exact absurd (hinj hkeq) (Fin.succ_ne_zero i).symm
      have := @ih (fun i : Fin p => keys i.succ) (fun i => vals i.succ)
        (fun a b hab => Fin.succ_injective p (hinj hab)) i
      simpa [dget?, List.find?, hne] using this

/-- Round trip of a freshly built parameter dict: looking up `keys j`
recovers `vals j` when the keys are pairwise distinct. -/
theorem dget0_dictOfFn {p : ℕ} {keys : Fin p → String} (vals : Fin p → ℝ)
    (hinj : Function.Injective keys) (j : Fin p) :
    dget0 (dictOfFn keys vals) (keys j) = vals j := by
  rw [dget0, dictOfFn_eq_ofFn vals hinj, dget?_ofFn vals hinj]
  rfl

theorem dget?_eq_none_of_not_mem {d : Dict} {k : String} (h : k ∉ d.map Prod.fst) :
    dget? d k = none := by
  rw [dget?, List.find?_eq_none.mpr]
  · rfl
  · intro q hq
    simp only [decide_eq_true_eq]
    intro hqk
    exact h (List.mem_map.mpr ⟨q, hq, hqk⟩)

theorem dget0_dictOfFn_of_not_mem {p : ℕ} {keys : Fin p → String} (vals : Fin p → ℝ)
    (hinj : Function.Injective keys) {k : String} (h : ∀ j, keys j ≠ k) :
    dget0 (dictOfFn keys vals) k = 0 := by
  rw [dictOfFn_eq_ofFn vals hinj, dget0, dget?_eq_none_of_not_mem]
  · rfl
  · intro hk
    rcases List.mem_map.mp hk with ⟨q, hq, hqk⟩
    rcases (List.mem_ofFn _ _).mp hq with ⟨j, rfl⟩
    exact h j hqk

/-- The values of a freshly built dict sum to the sum of the value
array when the keys are pairwise distinct. -/
theorem dvalsSum_dictOfFn {p : ℕ} {keys : Fin p → String} (vals : Fin p → ℝ)
    (hinj : Function.Injective keys) :
    dvalsSum (dictOfFn keys vals) = ∑ j, vals j := by
  rw [dvalsSum, dictOfFn_eq_ofFn vals hinj, List.map_ofFn, List.sum_ofFn]
  rfl

/-- The set of keys of a dict is unchanged by an update and extended by
a fresh insert; in both cases the value sum grows by exactly the
accumulated amount, provided the keys are pairwise distinct. -/
theorem dvalsSum_daccum {d : Dict} (hnd : (d.map Prod.fst).Nodup) (k : String) (v : ℝ) :
    dvalsSum (daccum d k v) = dvalsSum d + v := by
  rw [daccum, dinsert]
  by_cases hmem : dmem d k
  · rw [if_pos hmem]
    rcases List.mem_map.mp (dmem_iff.mp hmem) with ⟨q, hq, hqk⟩
    rcases List.mem_iff_append.mp hq with ⟨s, t, rfl⟩
    have hknots : k ∉ s.map Prod.fst := by
      rw [List.map_append, List.map_cons, List.nodup_append] at hnd
      intro hks
      exact hnd.2.2 hks (by simp [hqk])
    have hknott : k ∉ t.map Prod.fst := by
      rw [List.map_append, List.map_cons] at hnd
      have := hnd.of_append_right
      rw [List.nodup_cons] at this
      rw [hqk] at this
      exact fun hkt => this.1 hkt
    have hmap : ∀ u : Dict, k ∉ u.map Prod.fst →
        u.map (fun q' => if q'.1 = k then (k, dget0 (s ++ q :: t) k + v) else q') = u := by
      intro u hu
      apply List.map_congr_left ?_ |>.trans (List.map_id u)
      intro q' hq'
      have : q'.1 ≠ k := fun hq'k => hu (List.mem_map.mpr ⟨q', hq', hq'k⟩)
      simp [this]
    have hget : dget0 (s ++ q :: t) k = q.2 := by
      rw [dget0, dget?]
      rw [List.find?_append]
      have hs : (s.find? fun q' => decide (q'.1 = k)) = none := by
        rw [List.find?_eq_none]
        intro q' hq'
        simp only [decide_eq_true_eq]
        exact fun hq'k => hknots (List.mem_map.mpr ⟨q', hq', hq'k⟩)
      rw [hs, Option.none_or]
      have : (List.find? (fun q' => decide (q'.1 = k)) (q :: t)) = some q := by
        simp [List.find?_cons, hqk]
      rw [this]
      rfl
    rw [List.map_append, List.map_cons, hmap s hknots]
    have hq1 : (if q.1 = k then (k, dget0 (s ++ q :: t) k + v) else q)
        = (k, dget0 (s ++ q :: t) k + v) := by simp [hqk]
    rw [hq1, hmap t hknott, hget]
    simp [dvalsSum]
    ring
  · rw [if_neg hmem]
    have : dget0 d k = 0 := by
      rw [dget0, dget?_eq_none_of_not_mem]
      · rfl
      · intro hk
        exact hmem (dmem_iff.mpr hk)
    rw [this]
    simp [dvalsSum]

theorem nodupKeys_daccum {d : Dict} (hnd : (d.map Prod.fst).Nodup) (k : String) (v : ℝ) :
    ((daccum d k v).map Prod.fst).Nodup := by
  rw [daccum, dinsert]
  by_cases hmem : dmem d k
  · rw [if_pos hmem]
    have : (d.map (fun q' => if q'.1 = k then (k, dget0 d k + v) else q')).map Prod.fst
        = d.map Prod.fst := by
      rw [List.map_map]
      apply List.map_congr_left
      intro q' _
      by_cases hq'k : q'.1 = k
      · simp [hq'k]
      · simp [hq'k]
    rw [this]
    exact hnd
  · rw [if_neg hmem]
    rw [List.map_append, List.nodup_append]
    refine ⟨hnd, by simp, ?_⟩
    intro a ha hb
    simp only [List.map_cons, List.map_nil, List.mem_singleton] at hb
    subst hb
    exact hmem (dmem_iff.mpr ha)

/-- `build_dimension2_weights` only moves every weight into some group
bucket: the value total of the group dict is the sum over the indicator
list of the looked-up weights. -/
theorem dvalsSum_build_dimension2_weights (indicators : List Ind) (weights : Dict) :
    dvalsSum (build_dimension2_weights indicators weights)
      = (indicators.map (fun i => dget0 weights i.key)).sum := by
  suffices h : ∀ d : Dict, (d.map Prod.fst).Nodup →
      dvalsSum (indicators.foldl (fun dim i => daccum dim (grpOf i) (dget0 weights i.key)) d)
        = dvalsSum d + (indicators.map (fun i => dget0 weights i.key)).sum by
    simpa [build_dimension2_weights, dvalsSum] using h [] (by simp)
  induction indicators with
  | nil => intro d _; simp [dvalsSum]
  | cons i l ih =>
    intro d hnd
    have h1 := dvalsSum_daccum hnd (grpOf i) (dget0 weights i.key)
    have h2 := nodupKeys_daccum hnd (grpOf i) (dget0 weights i.key)
    simp only [List.foldl_cons, List.map_cons, List.sum_cons]
    rw [ih _ h2, h1]
    ring

/-! ## Except inversion helpers -/

theorem except_bind_ok {ε α β : Type} {e : Except ε α} {f : α → Except ε β} {b : β} :
    e.bind f = Except.ok b ↔ ∃ a, e = Except.ok a ∧ f a = Except.ok b := by
  cases e with
  | error err => simp [Except.bind]
  | ok a => simp [Except.bind]

theorem except_map_ok {ε α β : Type} {e : Except ε α} {f : α → β} {b : β} :
    Except.map f e = Except.ok b ↔ ∃ a, e = Except.ok a ∧ f a = b := by
  cases e with
  | error err => simp [Except.map]
  | ok a => simp [Except.map]

/-! ## Normalization lemmas for the three weighting algorithms -/

theorem entropyWeights_ok_iff {n p : ℕ} {z : Mat n p} {w : Fin p → ℝ} :
    entropyWeights z = Except.ok w
      ↔ 0 < ∑ j, entD z j ∧ w = fun j => entD z j / ∑ j, entD z j := by
  rw [entropyWeights]
  by_cases h : (∑ j, entD z j) ≤ 0
  · simp [h, not_lt.mpr h]
  · simp [h, not_le.mp h, eq_comm]

/-- Entropy weights sum to 1 exactly. -/
theorem entropyWeights_sum {n p : ℕ} {z : Mat n p} {w : Fin p → ℝ}
    (h : entropyWeights z = Except.ok w) : ∑ j, w j = 1 := by
  obtain ⟨hpos, rfl⟩ := entropyWeights_ok_iff.mp h
  rw [← Finset.sum_div, div_self (ne_of_gt hpos)]

theorem pcaWeights_ok_iff {p : ℕ} {nrows : ℕ} {eigvals : Fin p → ℝ}
    {eigvecs : Fin p → Fin p → ℝ} {t : ℝ} {r : PcaResult p} :
    pcaWeights nrows eigvals eigvecs t = Except.ok r
      ↔ 2 ≤ nrows ∧ 0 < ∑ i, pcaEv eigvals i
        ∧ 0 < ∑ j, pcaWRaw eigvals eigvecs (pcaK eigvals t) j
        ∧ r = { weights := fun j => pcaWRaw eigvals eigvecs (pcaK eigvals t) j
                  / ∑ j, pcaWRaw eigvals eigvecs (pcaK eigvals t) j
                k := pcaK eigvals t
                cumulative := pcaCum eigvals (pcaK eigvals t - 1) } := by
  rw [pcaWeights]
  by_cases h1 : nrows < 2
  · rw [if_pos h1]
    constructor
    · intro hcon; cases hcon
    · rintro ⟨h2le, -⟩
      omega
  · rw [if_neg h1]
    by_cases h2 : (∑ i, pcaEv eigvals i) ≤ 0
    · simp [h2, not_lt.mpr h2]
    · rw [if_neg h2]
      by_cases h3 : (∑ j, pcaWRaw eigvals eigvecs (pcaK eigvals t) j) ≤ 0
      · simp [h3, not_lt.mpr h3]
      · simp [h3, not_le.mp h3, not_le.mp h2, Nat.not_lt.mp h1, eq_comm]

/-- PCA weights sum to 1 exactly. -/
theorem pcaWeights_sum {p : ℕ} {nrows : ℕ} {eigvals : Fin p → ℝ}
    {eigvecs : Fin p → Fin p → ℝ} {t : ℝ} {r : PcaResult p}
    (h : pcaWeights nrows eigvals eigvecs t = Except.ok r) : ∑ j, r.weights j = 1 := by
  obtain ⟨-, -, hpos, rfl⟩ := pcaWeights_ok_iff.mp h
  rw [← Finset.sum_div, div_self (ne_of_gt hpos)]

theorem ahpWeights_ok_iff {r c : ℕ} {m : Fin r → Fin c → ℝ} {eigvals : Fin c → ℂ}
    {eigvecs : Fin c → Fin c → ℂ} {out : (Fin c → ℝ) × ℝ × ℝ × ℝ} :
    ahpWeights m eigvals eigvecs = Except.ok out
      ↔ r = c ∧ ∃ hc : 0 < c, (∑ j, ahpVec hc eigvals eigvecs j) ≠ 0
        ∧ out = (fun j => ahpVec hc eigvals eigvecs j / ∑ j, ahpVec hc eigvals eigvecs j,
            ahpLambdaMax hc eigvals, ahpCI hc eigvals, ahpCR hc eigvals) := by
  rw [ahpWeights]
  by_cases h1 : r = c
  · rw [if_neg (by simpa using h1)]
    by_cases h2 : c = 0
    · rw [dif_pos h2]
      simp [h1, h2]
    · rw [dif_neg h2]
      by_cases h3 : (∑ j, ahpVec (Nat.pos_of_ne_zero h2) eigvals eigvecs j) = 0
      · rw [if_pos h3]
        constructor
        · intro hcon; cases hcon
        · rintro ⟨-, hc, hne, -⟩
          exact absurd h3 hne
      · rw [if_neg h3]
        constructor
        · intro hok
          refine ⟨h1, Nat.pos_of_ne_zero h2, h3, ?_⟩
          cases hok
          rfl
        · rintro ⟨-, hc, -, rfl⟩
          rfl
  · rw [if_pos (by simpa using h1)]
    constructor
    · intro hcon; cases hcon
    · rintro ⟨hrc, -⟩
      exact absurd hrc h1

/-- AHP weights sum to 1 exactly. -/
theorem ahpWeights_sum {r c : ℕ} {m : Fin r → Fin c → ℝ} {eigvals : Fin c → ℂ}
    {eigvecs : Fin c → Fin c → ℂ} {out : (Fin c → ℝ) × ℝ × ℝ × ℝ}
    (h : ahpWeights m eigvals eigvecs = Except.ok out) : ∑ j, out.1 j = 1 := by
  obtain ⟨-, hc, hne, rfl⟩ := ahpWeights_ok_iff.mp h
  rw [← Finset.sum_div, div_self hne]

/-- Summing the looked-up weights over a duplicate-free list of keys
that covers the dict's key set recovers the total weight. -/
theorem sum_map_dget0_dictOfFn {p : ℕ} {keys : Fin p → String} (vals : Fin p → ℝ)
    (hinj : Function.Injective keys) (L : List String) (hnd : L.Nodup)
    (hcov : ∀ j, keys j ∈ L) :
    (L.map (fun k => dget0 (dictOfFn keys vals) k)).sum = ∑ j, vals j := by
  rw [← List.sum_toFinset _ hnd]
  have himg : (Finset.univ.image keys) ⊆ L.toFinset := by
    intro k hk
    rcases Finset.mem_image.mp hk with ⟨j, -, rfl⟩
    exact List.mem_toFinset.mpr (hcov j)
  rw [← Finset.sum_subset himg ?_]
  · rw [Finset.sum_image ?_]
    · exact Finset.sum_congr rfl (fun j _ => dget0_dictOfFn vals hinj j)
    · intro a _ b _ hab
      exact hinj hab
  · intro k _ hk
    refine dget0_dictOfFn_of_not_mem vals hinj (fun j hj => hk ?_)
    exact Finset.mem_image.mpr ⟨j, Finset.mem_univ j, hj⟩

/-! ## Inversion of the trainer's method dispatch -/

theorem trainCore_entropy_ok_iff {n p : ℕ} {keys : Fin p → String}
    {x_train : Mat (n + 1) p} {directions : Fin p → Direction}
    {pe : Fin p → ℝ} {pv : Fin p → Fin p → ℝ} {t : ℝ} {am : Fin p → Fin p → ℝ}
    {ae : Fin p → ℂ} {av : Fin p → Fin p → ℂ}
    {out : Mat (n + 1) p × (Fin p → ℝ) × Standardization
      × Option (ℕ × ℝ × ℝ) × Option (ℝ × ℝ × ℝ)} :
    trainCore Method.entropy keys x_train directions pe pv t am ae av = Except.ok out
      ↔ ∃ z w_vec,
          minmaxTransform (applyDirection x_train directions)
              (colMin (applyDirection x_train directions))
              (colMax (applyDirection x_train directions)) = Except.ok z
          ∧ entropyWeights z = Except.ok w_vec
          ∧ out = (z, w_vec,
              Standardization.minmax
                (dictOfFn keys (colMin (applyDirection x_train directions)))
                (dictOfFn keys (colMax (applyDirection x_train directions))),
              none, none) := by
  simp only [trainCore, except_bind_ok, except_map_ok]
  constructor
  · rintro ⟨z, hz, w_vec, hw, rfl⟩
    exact ⟨z, w_vec, hz, hw, rfl⟩
  · rintro ⟨z, w_vec, hz, hw, rfl⟩
    exact ⟨z, hz, w_vec, hw, rfl⟩

theorem trainCore_pca_ok_iff {n p : ℕ} {keys : Fin p → String}
    {x_train : Mat (n + 1) p} {directions : Fin p → Direction}
    {pe : Fin p → ℝ} {pv : Fin p → Fin p → ℝ} {t : ℝ} {am : Fin p → Fin p → ℝ}
    {ae : Fin p → ℂ} {av : Fin p → Fin p → ℂ}
    {out : Mat (n + 1) p × (Fin p → ℝ) × Standardization
      × Option (ℕ × ℝ × ℝ) × Option (ℝ × ℝ × ℝ)} :
    trainCore Method.pca keys x_train directions pe pv t am ae av = Except.ok out
      ↔ ∃ z res,
          zscoreTransform (applyDirection x_train directions)
              (colMean (applyDirection x_train directions))
              (colStd (applyDirection x_train directions)) = Except.ok z
          ∧ pcaWeights (n + 1) pe pv t = Except.ok res
          ∧ out = (z, res.weights,
              Standardization.zscore
                (dictOfFn keys (colMean (applyDirection x_train directions)))
                (dictOfFn keys (colStd (applyDirection x_train directions))),
              some (res.k, res.cumulative, t), none) := by
  simp only [trainCore, except_bind_ok, except_map_ok]
  constructor
  · rintro ⟨z, hz, res, hres, rfl⟩
    exact ⟨z, res, hz, hres, rfl⟩
  · rintro ⟨z, res, hz, hres, rfl⟩
    exact ⟨z, hz, res, hres, rfl⟩

theorem trainCore_ahp_ok_iff {n p : ℕ} {keys : Fin p → String}
    {x_train : Mat (n + 1) p} {directions : Fin p → Direction}
    {pe : Fin p → ℝ} {pv : Fin p → Fin p → ℝ} {t : ℝ} {am : Fin p → Fin p → ℝ}
    {ae : Fin p → ℂ} {av : Fin p → Fin p → ℂ}
    {out : Mat (n + 1) p × (Fin p → ℝ) × Standardization
      × Option (ℕ × ℝ × ℝ) × Option (ℝ × ℝ × ℝ)} :
    trainCore Method.ahp keys x_train directions pe pv t am ae av = Except.ok out
      ↔ ∃ z res,
          zscoreTransform (applyDirection x_train directions)
              (colMean (applyDirection x_train directions))
              (colStd (applyDirection x_train directions)) = Except.ok z
          ∧ ahpWeights am ae av = Except.ok res
          ∧ out = (z, res.1,
              Standardization.zscore
                (dictOfFn keys (colMean (applyDirection x_train directions)))
                (dictOfFn keys (colStd (applyDirection x_train directions))),
              none, some res.2) := by
  simp only [trainCore, except_bind_ok, except_map_ok]
  constructor
  · rintro ⟨z, hz, res, hres, rfl⟩
    exact ⟨z, res, hz, hres, rfl⟩
  · rintro ⟨z, res, hz, hres, rfl⟩
    exact ⟨z, hz, res, hres, rfl⟩

/-- Whatever the method, a successful dispatch yields a weight vector
summing to 1. -/
theorem trainCore_weights_sum {n p : ℕ} {method : Method} {keys : Fin p → String}
    {x_train : Mat (n + 1) p} {directions : Fin p → Direction}
    {pe : Fin p → ℝ} {pv : Fin p → Fin p → ℝ} {t : ℝ} {am : Fin p → Fin p → ℝ}
    {ae : Fin p → ℂ} {av : Fin p → Fin p → ℂ}
    {out : Mat (n + 1) p × (Fin p → ℝ) × Standardization
      × Option (ℕ × ℝ × ℝ) × Option (ℝ × ℝ × ℝ)}
    (h : trainCore method keys x_train directions pe pv t am ae av = Except.ok out) :
    ∑ j, out.2.1 j = 1 := by
  cases method with
  | entropy =>
    obtain ⟨z, w_vec, -, hw, rfl⟩ := trainCore_entropy_ok_iff.mp h
    exact entropyWeights_sum hw
  | pca =>
    obtain ⟨z, res, -, hres, rfl⟩ := trainCore_pca_ok_iff.mp h
    exact pcaWeights_sum hres
  | ahp =>
    obtain ⟨z, res, -, hres, rfl⟩ := trainCore_ahp_ok_iff.mp h
    exact ahpWeights_sum hres

/-! ## Train/apply round trip -/

/-- Applying the stored standardization parameters to the training
matrix reproduces the training-time standardized matrix: the parameter
dicts are rebuilt into exactly the fitted per-column arrays (the keys
are pairwise distinct), and the transform is deterministic. -/
theorem applyStandardization_of_trainCore {n p : ℕ} {method : Method}
    {keys : Fin p → String} {x_train : Mat (n + 1) p} {directions : Fin p → Direction}
    {pe : Fin p → ℝ} {pv : Fin p → Fin p → ℝ} {t : ℝ} {am : Fin p → Fin p → ℝ}
    {ae : Fin p → ℂ} {av : Fin p → Fin p → ℂ}
    {out : Mat (n + 1) p × (Fin p → ℝ) × Standardization
      × Option (ℕ × ℝ × ℝ) × Option (ℝ × ℝ × ℝ)}
    (hinj : Function.Injective keys)
    (hcore : trainCore method keys x_train directions pe pv t am ae av = Except.ok out) :
    applyStandardization out.2.2.1 keys (applyDirection x_train directions)
      = Except.ok out.1 := by
  cases method with
  | entropy =>
    obtain ⟨z, w_vec, hz, -, rfl⟩ := trainCore_entropy_ok_iff.mp hcore
    have hmn : (fun j => dget0 (dictOfFn keys (colMin (applyDirection x_train directions)))
        (keys j)) = colMin (applyDirection x_train directions) :=
      funext (dget0_dictOfFn _ hinj)
    have hmx : (fun j => dget0 (dictOfFn keys (colMax (applyDirection x_train directions)))
        (keys j)) = colMax (applyDirection x_train directions) :=
      funext (dget0_dictOfFn _ hinj)
    rw [applyStandardization, hmn, hmx]
    exact hz
  | pca =>
    obtain ⟨z, res, hz, -, rfl⟩ := trainCore_pca_ok_iff.mp hcore
    have hme : (fun j => dget0 (dictOfFn keys (colMean (applyDirection x_train directions)))
        (keys j)) = colMean (applyDirection x_train directions) :=
      funext (dget0_dictOfFn _ hinj)
    have hsd : (fun j => dget0 (dictOfFn keys (colStd (applyDirection x_train directions)))
        (keys j)) = colStd (applyDirection x_train directions) :=
      funext (dget0_dictOfFn _ hinj)
    rw [applyStandardization, hme, hsd]
    exact hz
  | ahp =>
    obtain ⟨z, res, hz, -, rfl⟩ := trainCore_ahp_ok_iff.mp hcore
    have hme : (fun j => dget0 (dictOfFn keys (colMean (applyDirection x_train directions)))
        (keys j)) = colMean (applyDirection x_train directions) :=
      funext (dget0_dictOfFn _ hinj)
    have hsd : (fun j => dget0 (dictOfFn keys (colStd (applyDirection x_train directions)))
        (keys j)) = colStd (applyDirection x_train directions) :=
      funext (dget0_dictOfFn _ hinj)
    rw [applyStandardization, hme, hsd]
    exact hz

theorem train_ok_iff {n p : ℕ} {method : Method} {keys : Fin p → String}
    {inds : List Ind} {x_train : Mat (n + 1) p} {directions : Fin p → Direction}
    {pe : Fin p → ℝ} {pv : Fin p → Fin p → ℝ} {t : ℝ} {am : Fin p → Fin p → ℝ}
    {ae : Fin p → ℂ} {av : Fin p → Fin p → ℂ} {M : Model p} :
    train_weight_model method keys inds x_train directions pe pv t am ae av = Except.ok M
      ↔ ∃ core, trainCore method keys x_train directions pe pv t am ae av = Except.ok core
          ∧ assembleModel method keys inds core = M := by
  rw [train_weight_model]
  exact except_map_ok

/-- Round trip: applying a freshly trained model to its own training
matrix and directions succeeds and returns the training-time
standardized matrix, raw scores and sub-scores unchanged. -/
theorem apply_model_of_train {n p : ℕ} {method : Method} {keys : Fin p → String}
    {inds : List Ind} {x_train : Mat (n + 1) p} {directions : Fin p → Direction}
    {pe : Fin p → ℝ} {pv : Fin p → Fin p → ℝ} {t : ℝ} {am : Fin p → Fin p → ℝ}
    {ae : Fin p → ℂ} {av : Fin p → Fin p → ℂ}
    {out : Mat (n + 1) p × (Fin p → ℝ) × Standardization
      × Option (ℕ × ℝ × ℝ) × Option (ℝ × ℝ × ℝ)} {M : Model p}
    (hinj : Function.Injective keys)
    (hcore : trainCore method keys x_train directions pe pv t am ae av = Except.ok out)
    (hM : train_weight_model method keys inds x_train directions pe pv t am ae av
      = Except.ok M) :
    ∃ si, apply_weight_model M inds x_train directions = Except.ok
      (out.1,
       (compute_scores out.1 keys inds (dictOfFn keys out.2.1)).scoreRaw,
       (compute_scores out.1 keys inds (dictOfFn keys out.2.1)).subScores,
       si) := by
  obtain ⟨core, hcore', hMeq⟩ := train_ok_iff.mp hM
  have hsame : core = out := Except.ok.inj (hcore'.symm.trans hcore)
  subst hsame
  subst hMeq
  have hstd : applyStandardization
      (assembleModel method keys inds core).standardization
      (assembleModel method keys inds core).indicatorKeys
      (applyDirection x_train directions) = Except.ok core.1 :=
    applyStandardization_of_trainCore hinj hcore
  refine ⟨fun g => ((compute_scores core.1 keys inds (dictOfFn keys core.2.1)).subScores g).map
    (fun v => scale_0_100 v
      (((assembleModel method keys inds core).scaling.bind
        (fun s => s.subScoreMin g)).getD (rowMin v))
      (((assembleModel method keys inds core).scaling.bind
        (fun s => s.subScoreMax g)).getD (rowMax v))), ?_⟩
  rw [apply_weight_model, hstd]
  rfl

/-! ## PCA component selection -/

theorem pcaEv_nonneg {p : ℕ} (eigvals : Fin p → ℝ) (i : Fin p) : 0 ≤ pcaEv eigvals i := by
  rw [pcaEv]
  split
  · exact le_refl 0
  · next h => exact le_of_not_lt h

theorem pcaCum_mono {p : ℕ} (eigvals : Fin p → ℝ)
    (htot : 0 < ∑ i, pcaEv eigvals i) {l l' : ℕ} (h : l ≤ l') :
    pcaCum eigvals l ≤ pcaCum eigvals l' := by
  rw [pcaCum, pcaCum]
  have hsum : (∑ i with i.val ≤ l, pcaEv eigvals i)
      ≤ ∑ i with i.val ≤ l', pcaEv eigvals i := by
    apply Finset.sum_le_sum_of_subset_of_nonneg
    · intro i hi
      rw [Finset.mem_filter] at hi ⊢
      exact ⟨hi.1, hi.2.trans h⟩
    · intro i _ _
      exact pcaEv_nonneg eigvals i
  exact div_le_div_of_nonneg_right hsum (le_of_lt htot)

/-- `np.searchsorted(cum, t) + 1`, clamped to `[1, p]`, is the least
0-based index whose cumulative ratio reaches the threshold, plus one —
or `p` when no index reaches it. -/
theorem pcaK_eq {p : ℕ} (eigvals : Fin p → ℝ) (t : ℝ) (hp : 0 < p)
    (htot : 0 < ∑ i, pcaEv eigvals i) :
    pcaK eigvals t = if h : ∃ l, l < p ∧ t ≤ pcaCum eigvals l then Nat.find h + 1 else p := by
  rw [pcaK, pcaSearchSorted]
  split
  · next h =>
    set m := Nat.find h with hm
    obtain ⟨hmp, hmt⟩ := Nat.find_spec h
    have hfilter : Finset.univ.filter (fun l : Fin p => pcaCum eigvals l.val < t)
        = Finset.Iio (⟨m, hmp⟩ : Fin p) := by
      ext l
      simp only [Finset.mem_filter, Finset.mem_univ, true_and, Finset.mem_Iio, Fin.lt_def]
      constructor
      · intro hl
        by_contra hge
        push_neg at hge
        have hts : t ≤ pcaCum eigvals l.val := hmt.trans (pcaCum_mono eigvals htot hge)
        exact absurd hl (not_lt.mpr hts)
      · intro hl
        have := Nat.find_min h hl
        push_neg at this
        exact lt_of_not_le (fun hle => absurd (this l.2) (not_lt.mpr hle))
    rw [hfilter, Fin.card_Iio]
    have hval : ((⟨m, hmp⟩ : Fin p) : ℕ) = m := rfl
    rw [hval]
    omega
  · next h =>
    push_neg at h
    have hfilter : Finset.univ.filter (fun l : Fin p => pcaCum eigvals l.val < t)
        = Finset.univ := by
      ext l
      simp only [Finset.mem_filter, Finset.mem_univ, true_and, iff_true]
      exact h l.val l.2
    rw [hfilter, Finset.card_univ, Fintype.card_fin]
    omega

/-! ## Entropy diversity bounds

On a non-negative standardized matrix (the documented precondition of
`_entropy_weights`: `z is non-negative (after min-max)`) the column
proportions form a sub-probability vector, the normalized entropy `e_j`
is at most 1, hence every diversity `d_j` and every weight is
non-negative. -/

theorem entColSumAdj_pos {n p : ℕ} {z : Mat n p} (hz : ∀ i j, 0 ≤ z i j) (j : Fin p) :
    0 < entColSumAdj z j := by
  rw [entColSumAdj]
  split
  · norm_num
  · next h =>
    exact lt_of_le_of_ne (Finset.sum_nonneg (fun i _ => hz i j)) (Ne.symm h)

theorem entPij_nonneg {n p : ℕ} {z : Mat n p} (hz : ∀ i j, 0 ≤ z i j) (i : Fin n)
    (j : Fin p) : 0 ≤ entPij z i j :=
  div_nonneg (hz i j) (le_of_lt (entColSumAdj_pos hz j))

theorem entPij_sum_eq_one {n p : ℕ} {z : Mat n p} (j : Fin p)
    (h : entColSum z j ≠ 0) : ∑ i, entPij z i j = 1 := by
  have hadj : entColSumAdj z j = entColSum z j := by rw [entColSumAdj, if_neg h]
  simp only [entPij, hadj]
  rw [← Finset.sum_div]
  exact div_self h

theorem entPij_eq_zero {n p : ℕ} {z : Mat n p} (hz : ∀ i j, 0 ≤ z i j) (j : Fin p)
    (h : entColSum z j = 0) (i : Fin n) : entPij z i j = 0 := by
  have hzij : z i j = 0 :=
    (Finset.sum_eq_zero_iff_of_nonneg (fun i _ => hz i j)).mp h i (Finset.mem_univ i)
  rw [entPij, hzij, zero_div]

/-- Gibbs' inequality for a probability vector with the `0 * log 0 = 0`
convention: the (negated) entropy sum is at least `-log n`. -/
theorem gibbs_bound {n : ℕ} (q : Fin n → ℝ) (hq : ∀ i, 0 ≤ q i) (hsum : ∑ i, q i = 1) :
    -(Real.log n) ≤ ∑ i, q i * (if 0 < q i then Real.log (q i) else 0) := by
  have hn : 0 < n := by
    cases n with
    | zero => simp at hsum
    | succ m => exact Nat.succ_pos m
  have hnR : (0 : ℝ) < n := by exact_mod_cast hn
  have hfull : (∑ i, q i * (if 0 < q i then Real.log (q i) else 0))
      = ∑ i with 0 < q i, q i * Real.log (q i) := by
    rw [Finset.sum_filter]
    apply Finset.sum_congr rfl
    intro i _
    by_cases hi : 0 < q i
    · rw [if_pos hi, if_pos hi]
    · rw [if_neg hi, if_neg hi, mul_zero]
  have hsum_s : (∑ i with 0 < q i, q i) = 1 := by
    rw [Finset.sum_filter_of_ne, hsum]
    intro i _ hne
    exact lt_of_le_of_ne (hq i) (Ne.symm hne)
  have hterm : ∀ i ∈ Finset.univ.filter (fun i => 0 < q i),
      -(q i * Real.log n) - q i * Real.log (q i) ≤ 1 / n - q i := by
    intro i hi
    have hqi : 0 < q i := (Finset.mem_filter.mp hi).2
    have hx : (0 : ℝ) < 1 / (n * q i) := by positivity
    have hlog := Real.log_le_sub_one_of_pos hx
    rw [one_div, Real.log_inv, Real.log_mul (ne_of_gt hnR) (ne_of_gt hqi)] at hlog
    have hmul := mul_le_mul_of_nonneg_left hlog (le_of_lt hqi)
    have hL : q i * -(Real.log n + Real.log (q i))
        = -(q i * Real.log n) - q i * Real.log (q i) := by ring
    have hR : q i * ((n * q i)⁻¹ - 1) = 1 / n - q i := by
      field_simp
      ring
    rw [hL, hR] at hmul
    exact hmul
  have hsum_le := Finset.sum_le_sum hterm
  have hcard : ((Finset.univ.filter (fun i => 0 < q i)).card : ℝ) ≤ n := by
    have := Finset.card_filter_le Finset.univ (fun i => 0 < q i)
    rw [Finset.card_univ, Fintype.card_fin] at this
    exact_mod_cast this
  have hRHS : (∑ i with 0 < q i, (1 / (n : ℝ) - q i)) ≤ 0 := by
    rw [Finset.sum_sub_distrib, hsum_s, Finset.sum_const, nsmul_eq_mul]
    have h2 : ((Finset.univ.filter (fun i => 0 < q i)).card : ℝ) * (1 / n) ≤ 1 := by
      rw [mul_one_div, div_le_one hnR]
      exact hcard
    linarith
  have h1 : (∑ i with 0 < q i, -(q i * Real.log n)) = -(Real.log n) := by
    rw [Finset.sum_neg_distrib, ← Finset.sum_mul, hsum_s, one_mul]
  have hLHS : (∑ i with 0 < q i, (-(q i * Real.log n) - q i * Real.log (q i)))
      = -(Real.log n) - ∑ i with 0 < q i, q i * Real.log (q i) := by
    rw [Finset.sum_sub_distrib, h1]
  rw [hfull]
  linarith [hsum_le, hRHS, hLHS]

/-- On a non-negative standardized matrix the normalized entropy of
every column is at most 1. -/
theorem entE_le_one {n p : ℕ} {z : Mat n p} (hz : ∀ i j, 0 ≤ z i j) (j : Fin p) :
    entE z j ≤ 1 := by
  simp only [entE, entK]
  by_cases hn : 1 < n
  · rw [if_pos hn]
    by_cases hcs : entColSum z j = 0
    · have hzero : (∑ i, entPij z i j * entLogp z i j) = 0 :=
        Finset.sum_eq_zero (fun i _ => by rw [entPij_eq_zero hz j hcs, zero_mul])
      rw [hzero, mul_zero]
      norm_num
    · have hg : -(Real.log n) ≤ ∑ i, entPij z i j * entLogp z i j :=
        gibbs_bound (fun i => entPij z i j) (fun i => entPij_nonneg hz i j)
          (entPij_sum_eq_one j hcs)
    -- multiply `-T ≤ log n` by the non-negative factor `1 / log n`
      have hlog : 0 < Real.log n := Real.log_pos (by exact_mod_cast hn)
      have h2 : -(∑ i, entPij z i j * entLogp z i j) ≤ Real.log n := by linarith
      have h3 : (1 / Real.log n) * -(∑ i, entPij z i j * entLogp z i j)
          ≤ (1 / Real.log n) * Real.log n :=
        mul_le_mul_of_nonneg_left h2 (by positivity)
      rw [one_div_mul_cancel (ne_of_gt hlog)] at h3
      calc -(1 / Real.log n) * (∑ i, entPij z i j * entLogp z i j)
          = (1 / Real.log n) * -(∑ i, entPij z i j * entLogp z i j) := by ring
        _ ≤ 1 := h3
  · rw [if_neg hn]
    norm_num

theorem entD_nonneg {n p : ℕ} {z : Mat n p} (hz : ∀ i j, 0 ≤ z i j) (j : Fin p) :
    0 ≤ entD z j := by
  have := entE_le_one hz j
  simp only [entD]
  linarith

/-- Entropy weights are entrywise non-negative on a non-negative
standardized matrix. -/
theorem entropyWeights_nonneg {n p : ℕ} {z : Mat n p} {w : Fin p → ℝ}
    (hz : ∀ i j, 0 ≤ z i j) (h : entropyWeights z = Except.ok w) (j : Fin p) :
    0 ≤ w j := by
  obtain ⟨hpos, rfl⟩ := entropyWeights_ok_iff.mp h
  exact div_nonneg (entD_nonneg hz j) (le_of_lt hpos)

theorem pcaWRaw_nonneg {p : ℕ} (eigvals : Fin p → ℝ) (eigvecs : Fin p → Fin p → ℝ)
    (k : ℕ) (j : Fin p) : 0 ≤ pcaWRaw eigvals eigvecs k j :=
  Finset.sum_nonneg (fun l _ => by positivity)

/-- PCA weights are entrywise non-negative: sums of squares divided by a
positive total. -/
theorem pcaWeights_nonneg {p : ℕ} {nrows : ℕ} {eigvals : Fin p → ℝ}
    {eigvecs : Fin p → Fin p → ℝ} {t : ℝ} {r : PcaResult p}
    (h : pcaWeights nrows eigvals eigvecs t = Except.ok r) (j : Fin p) :
    0 ≤ r.weights j := by
  obtain ⟨-, -, hpos, rfl⟩ := pcaWeights_ok_iff.mp h
  exact div_nonneg (pcaWRaw_nonneg eigvals eigvecs _ j) (le_of_lt hpos)

theorem ahpVec_nonneg {c : ℕ} (hc : 0 < c) (eigvals : Fin c → ℂ)
    (eigvecs : Fin c → Fin c → ℂ) (j : Fin c) : 0 ≤ ahpVec hc eigvals eigvecs j := by
  simp only [ahpVec]
  split
  · next h => linarith
  · next h => exact le_of_not_lt h

/-- AHP weights are entrywise non-negative: absolute-valued entries
divided by their (positive) total. -/
theorem ahpWeights_nonneg {r c : ℕ} {m : Fin r → Fin c → ℝ} {eigvals : Fin c → ℂ}
    {eigvecs : Fin c → Fin c → ℂ} {out : (Fin c → ℝ) × ℝ × ℝ × ℝ}
    (h : ahpWeights m eigvals eigvecs = Except.ok out) (j : Fin c) : 0 ≤ out.1 j := by
  obtain ⟨-, hc, hne, rfl⟩ := ahpWeights_ok_iff.mp h
  have hpos : 0 < ∑ j, ahpVec hc eigvals eigvecs j :=
    lt_of_le_of_ne (Finset.sum_nonneg (fun j _ => ahpVec_nonneg hc eigvals eigvecs j))
      (Ne.symm hne)
  exact div_nonneg (ahpVec_nonneg hc eigvals eigvecs j) (le_of_lt hpos)

/-! ## Non-negative dict values -/

theorem dget0_nonneg {d : Dict} (hd : ∀ q ∈ d, 0 ≤ q.2) (k : String) : 0 ≤ dget0 d k := by
  rw [dget0, dget?]
  cases hfind : d.find? (fun q => decide (q.1 = k)) with
  | none => simp
  | some q =>
    have hq := List.mem_of_find?_eq_some hfind
    simpa using hd q hq

theorem dinsert_nonneg {d : Dict} (hd : ∀ q ∈ d, 0 ≤ q.2) {k : String} {v : ℝ}
    (hv : 0 ≤ v) : ∀ q ∈ dinsert d k v, 0 ≤ q.2 := by
  intro q hq
  rw [dinsert] at hq
  by_cases hmem : dmem d k
  · rw [if_pos hmem] at hq
    rcases List.mem_map.mp hq with ⟨q', hq', hq'eq⟩
    by_cases hk : q'.1 = k
    · rw [if_pos hk] at hq'eq
      rw [← hq'eq]
      exact hv
    · rw [if_neg hk] at hq'eq
      rw [← hq'eq]
      exact hd q' hq'
  · rw [if_neg hmem] at hq
    rcases List.mem_append.mp hq with hq | hq
    · exact hd q hq
    · simp only [List.mem_singleton] at hq
      rw [hq]
      exact hv

theorem dictOfFn_nonneg {p : ℕ} (keys : Fin p → String) {vals : Fin p → ℝ}
    (hv : ∀ i, 0 ≤ vals i) : ∀ q ∈ dictOfFn keys vals, 0 ≤ q.2 := by
  rw [dictOfFn]
  have hgen : ∀ (l : List (String × ℝ)), (∀ q ∈ l, 0 ≤ q.2) → ∀ (d : Dict),
      (∀ q ∈ d, 0 ≤ q.2) →
      ∀ q ∈ l.foldl (fun d q => dinsert d q.1 q.2) d, 0 ≤ q.2 := by
    intro l
    induction l with
    | nil => intro _ d hd q hq; exact hd q hq
    | cons a l ih =>
      intro hl d hd
      exact ih (fun q hq => hl q (List.mem_cons_of_mem a hq))
        (dinsert d a.1 a.2) (dinsert_nonneg hd (hl a (List.mem_cons_self a l)))
  apply hgen
  · intro q hq
    rcases (List.mem_ofFn _ _).mp hq with ⟨i, rfl⟩
    exact hv i
  · intro q hq
    cases hq

/-- Group weights accumulated by `build_dimension2_weights` stay
non-negative when every individual weight is. -/
theorem build_dimension2_weights_nonneg (indicators : List Ind) {weights : Dict}
    (hw : ∀ q ∈ weights, 0 ≤ q.2) :
    ∀ q ∈ build_dimension2_weights indicators weights, 0 ≤ q.2 := by
  rw [build_dimension2_weights]
  have hgen : ∀ (l : List Ind) (d : Dict), (∀ q ∈ d, 0 ≤ q.2) →
      ∀ q ∈ l.foldl (fun dim i => daccum dim (grpOf i) (dget0 weights i.key)) d, 0 ≤ q.2 := by
    intro l
    induction l with
    | nil => intro d hd q hq; exact hd q hq
    | cons a l ih =>
      intro d hd
      apply ih
      apply dinsert_nonneg hd
      have h1 := dget0_nonneg hd (grpOf a)
      have h2 := dget0_nonneg hw a.key
      linarith
  intro q hq
  exact hgen indicators [] (fun q hq => by cases hq) q hq

/-- Inversion of a successful `apply_weight_model` call: the components
of the returned tuple in terms of the standardized matrix. -/
theorem apply_ok_inv {n p : ℕ} {M : Model p} {inds : List Ind} {x : Mat (n + 1) p}
    {dirs : Fin p → Direction} {z s subs si}
    (h : apply_weight_model M inds x dirs = Except.ok (z, s, subs, si)) :
    applyStandardization M.standardization M.indicatorKeys (applyDirection x dirs)
      = Except.ok z
    ∧ s = (compute_scores z M.indicatorKeys inds M.weights).scoreRaw
    ∧ subs = (compute_scores z M.indicatorKeys inds M.weights).subScores
    ∧ si = fun g => (subs g).map (fun v => scale_0_100 v
        ((M.scaling.bind (fun sc => sc.subScoreMin g)).getD (rowMin v))
        ((M.scaling.bind (fun sc => sc.subScoreMax g)).getD (rowMax v))) := by
  rw [apply_weight_model] at h
  rw [except_map_ok] at h
  obtain ⟨z0, hz0, heq⟩ := h
  obtain ⟨h1, h2, h3, h4⟩ : z0 = z
      ∧ (compute_scores z0 M.indicatorKeys inds M.weights).scoreRaw = s
      ∧ (compute_scores z0 M.indicatorKeys inds M.weights).subScores = subs
      ∧ (fun g => ((compute_scores z0 M.indicatorKeys inds M.weights).subScores g).map
          (fun v => scale_0_100 v
            ((M.scaling.bind (fun sc => sc.subScoreMin g)).getD (rowMin v))
            ((M.scaling.bind (fun sc => sc.subScoreMax g)).getD (rowMax v)))) = si := by
    have := heq
    rw [Prod.mk.injEq, Prod.mk.injEq, Prod.mk.injEq] at this
    exact ⟨this.1, this.2.1, this.2.2.1, this.2.2.2⟩
  subst h1
  subst h3
  exact ⟨hz0, h2.symm, rfl, h4.symm⟩

/-! ## Claim theorems -/

/-- C3: the min-max transform raises `DegenerateColumn` iff some column
has `max_v == min_v`, otherwise returning `(X - min_v)/(max_v - min_v)`;
the z-score transform raises `DegenerateColumn` iff some column's stored
std is 0, otherwise returning `(X - mean)/std`.  No silent inf/NaN: the
ok branch divides by denominators that are all nonzero. -/
theorem C3_degenerate_column_iff {n p : ℕ} (x : Mat n p) (min_v max_v mean std : Fin p → ℝ) :
    (minmaxTransform x min_v max_v = Except.error CErr.degenerateColumn
      ↔ ∃ j, max_v j = min_v j)
    ∧ (¬ (∃ j, max_v j = min_v j) →
        (∀ j, max_v j - min_v j ≠ 0)
        ∧ minmaxTransform x min_v max_v
          = Except.ok (fun i j => (x i j - min_v j) / (max_v j - min_v j)))
    ∧ (zscoreTransform x mean std = Except.error CErr.degenerateColumn ↔ ∃ j, std j = 0)
    ∧ (¬ (∃ j, std j = 0) →
        (∀ j, std j ≠ 0)
        ∧ zscoreTransform x mean std = Except.ok (fun i j => (x i j - mean j) / std j)) := by
  have hiff : (∃ j, max_v j - min_v j = 0) ↔ ∃ j, max_v j = min_v j := by
    constructor
    · rintro ⟨j, hj⟩; exact ⟨j, sub_eq_zero.mp hj⟩
    · rintro ⟨j, hj⟩; exact ⟨j, sub_eq_zero.mpr hj⟩
  refine ⟨?_, ?_, ?_, ?_⟩
  · rw [minmaxTransform]
    by_cases h : ∃ j, max_v j - min_v j = 0
    · rw [if_pos h]
      simpa using hiff.mp h
    · rw [if_neg h]
      constructor
      · intro hcon; cases hcon
      · intro hex; exact absurd (hiff.mpr hex) h
  · intro hne
    refine ⟨fun j hj => hne ⟨j, sub_eq_zero.mp hj⟩, ?_⟩
    rw [minmaxTransform, if_neg (fun hex => hne (hiff.mp hex))]
  · rw [zscoreTransform]
    by_cases h : ∃ j, std j = 0
    · rw [if_pos h]
      simpa using h
    · rw [if_neg h]
      constructor
      · intro hcon; cases hcon
      · intro hex; exact absurd hex h
  · intro hne
    refine ⟨fun j hj => hne ⟨j, hj⟩, ?_⟩
    rw [zscoreTransform, if_neg hne]

/-- Witness for C3 at concrete inputs: a constant column is rejected by
min-max, and a unit-std column is transformed without error. -/
theorem C3_degenerate_column_iff_witness :
    (minmaxTransform (fun _ _ => (5 : ℝ)) (fun _ => 2) (fun _ => 2) : Except CErr (Mat 1 1))
      = Except.error CErr.degenerateColumn
    ∧ (zscoreTransform (fun _ _ => (5 : ℝ)) (fun _ => 0) (fun _ => 1) : Except CErr (Mat 1 1))
      = Except.ok (fun i j => ((fun _ _ => (5 : ℝ)) i j - (fun _ => (0 : ℝ)) j)
          / (fun _ => (1 : ℝ)) j) := by
  constructor
  · exact (C3_degenerate_column_iff (fun _ _ => (5 : ℝ)) (fun _ => 2) (fun _ => 2)
      (fun _ => 0) (fun _ => 1)).1.mpr ⟨0, rfl⟩
  · exact ((C3_degenerate_column_iff (fun _ _ => (5 : ℝ)) (fun _ => 2) (fun _ => 2)
      (fun _ => 0) (fun _ => 1)).2.2.2 (by rintro ⟨j, hj⟩; norm_num at hj)).2

/-- C6: `scale_0_100` is the affine map
`(values - vmin)/(vmax - vmin) * 100` whenever `vmax ≠ vmin` — hence
exactly 0 at entries equal to `vmin` and exactly 100 at entries equal to
`vmax` — and the constant 50 when `vmax == vmin`. -/
theorem C6_scale_0_100 {n : ℕ} (values : Fin n → ℝ) (vmin vmax : ℝ) :
    (vmax = vmin → ∀ i, scale_0_100 values vmin vmax i = 50)
    ∧ (vmax ≠ vmin →
        (∀ i, scale_0_100 values vmin vmax i = (values i - vmin) / (vmax - vmin) * 100)
        ∧ (∀ i, values i = vmin → scale_0_100 values vmin vmax i = 0)
        ∧ (∀ i, values i = vmax → scale_0_100 values vmin vmax i = 100)) := by
  constructor
  · intro heq i
    rw [scale_0_100, if_pos (by rw [heq, sub_self])]
  · intro hne
    have hd : vmax - vmin ≠ 0 := sub_ne_zero.mpr hne
    have hform : ∀ i, scale_0_100 values vmin vmax i
        = (values i - vmin) / (vmax - vmin) * 100 := by
      intro i
      rw [scale_0_100, if_neg hd]
    refine ⟨hform, ?_, ?_⟩
    · intro i hi
      rw [hform i, hi, sub_self, zero_div, zero_mul]
    · intro i hi
      rw [hform i, hi, div_self hd, one_mul]

/-- Witness for C6: boundaries map to exactly 0 and 100, and equal
boundaries give the constant 50. -/
theorem C6_scale_0_100_witness :
    scale_0_100 (fun i : Fin 2 => if i = 0 then (0 : ℝ) else 1) 0 1 0 = 0
    ∧ scale_0_100 (fun i : Fin 2 => if i = 0 then (0 : ℝ) else 1) 0 1 1 = 100
    ∧ scale_0_100 (fun _ : Fin 2 => (3 : ℝ)) 3 3 0 = 50 := by
  refine ⟨?_, ?_, ?_⟩
  · exact ((C6_scale_0_100 (fun i : Fin 2 => if i = 0 then (0 : ℝ) else 1) 0 1).2
      (by norm_num)).2.1 0 (by norm_num)
  · exact ((C6_scale_0_100 (fun i : Fin 2 => if i = 0 then (0 : ℝ) else 1) 0 1).2
      (by norm_num)).2.2 1 (by norm_num)
  · exact (C6_scale_0_100 (fun _ : Fin 2 => (3 : ℝ)) 3 3).1 rfl 0

/-- C7: the 0-100 index is never clamped.  For frozen boundaries with
`vmin < vmax` the scaler is strictly increasing, scores above the
training max land strictly above 100, scores below the training min
land strictly below 0; and `apply_weight_model` scales each group's
sub-scores with the stored boundaries as they are, without truncation. -/
theorem C7_no_truncation {n : ℕ} (values : Fin n → ℝ) (vmin vmax : ℝ) (hlt : vmin < vmax) :
    (∀ i i', values i < values i'
      → scale_0_100 values vmin vmax i < scale_0_100 values vmin vmax i')
    ∧ (∀ i, vmax < values i → 100 < scale_0_100 values vmin vmax i)
    ∧ (∀ i, values i < vmin → scale_0_100 values vmin vmax i < 0)
    ∧ (∀ {m p : ℕ} (M : Model p) (inds : List Ind) (x : Mat (m + 1) p)
        (dirs : Fin p → Direction) z s subs si g v smin smax,
        apply_weight_model M inds x dirs = Except.ok (z, s, subs, si) →
        subs g = some v →
        M.scaling.bind (fun sc => sc.subScoreMin g) = some smin →
        M.scaling.bind (fun sc => sc.subScoreMax g) = some smax →
        si g = some (scale_0_100 v smin smax)) := by
  have hd : 0 < vmax - vmin := sub_pos.mpr hlt
  have hform : ∀ i, scale_0_100 values vmin vmax i
      = (values i - vmin) / (vmax - vmin) * 100 := by
    intro i
    rw [scale_0_100, if_neg (ne_of_gt hd)]
  refine ⟨?_, ?_, ?_, ?_⟩
  · intro i i' hii
    rw [hform i, hform i']
    have h1 : (values i - vmin) / (vmax - vmin) < (values i' - vmin) / (vmax - vmin) := by
      rw [div_lt_div_iff_of_pos_right hd]
      linarith
    nlinarith
  · intro i hi
    rw [hform i]
    have h1 : 1 < (values i - vmin) / (vmax - vmin) := by
      rw [lt_div_iff₀ hd]
      linarith
    nlinarith
  · intro i hi
    rw [hform i]
    have h1 : (values i - vmin) / (vmax - vmin) < 0 :=
      div_neg_of_neg_of_pos (by linarith) hd
    nlinarith
  · intro m p M inds x dirs z s subs si g v smin smax happly hsubs hsmin hsmax
    obtain ⟨-, -, -, hsi⟩ := apply_ok_inv happly
    rw [hsi]
    simp only [hsubs, Option.map_some, hsmin, hsmax, Option.getD_some]
    rfl

/-- Witness for C7: with frozen boundaries 0 and 1, a raw score of −1
scales strictly below 0, a raw score of 2 strictly above 100, and the
scaler is strictly increasing between them. -/
theorem C7_no_truncation_witness :
    ((0 : ℝ) < 1)
    ∧ scale_0_100 (fun i : Fin 2 => if i = 0 then (-1 : ℝ) else 2) 0 1 0 < 0
    ∧ 100 < scale_0_100 (fun i : Fin 2 => if i = 0 then (-1 : ℝ) else 2) 0 1 1
    ∧ scale_0_100 (fun i : Fin 2 => if i = 0 then (-1 : ℝ) else 2) 0 1 0
      < scale_0_100 (fun i : Fin 2 => if i = 0 then (-1 : ℝ) else 2) 0 1 1 := by
  refine ⟨by norm_num, ?_, ?_, ?_⟩
  · exact (C7_no_truncation (fun i : Fin 2 => if i = 0 then (-1 : ℝ) else 2) 0 1
      (by norm_num)).2.2.1 0 (by norm_num)
  · exact (C7_no_truncation (fun i : Fin 2 => if i = 0 then (-1 : ℝ) else 2) 0 1
      (by norm_num)).2.1 1 (by norm_num)
  · exact (C7_no_truncation (fun i : Fin 2 => if i = 0 then (-1 : ℝ) else 2) 0 1
      (by norm_num)).1 0 1 (by norm_num)

/-- C9: missing scaling information never makes `apply_weight_model`
fail.  With no scaling entry, or with a group's bounds absent from it,
the min/max of the scores computed on the new matrix itself are
silently substituted for the missing boundaries (the resolution of the
overall score bounds on line 308-309 behaves the same way). -/
theorem C9_missing_bounds_fallback {n p : ℕ} (M : Model p) (inds : List Ind)
    (x : Mat (n + 1) p) (dirs : Fin p → Direction) :
    (∀ z, applyStandardization M.standardization M.indicatorKeys (applyDirection x dirs)
        = Except.ok z → ∃ out, apply_weight_model M inds x dirs = Except.ok out)
    ∧ (∀ z s subs si g v, apply_weight_model M inds x dirs = Except.ok (z, s, subs, si) →
        M.scaling = none → subs g = some v →
        si g = some (scale_0_100 v (rowMin v) (rowMax v)))
    ∧ (∀ z s subs si g v sc, apply_weight_model M inds x dirs = Except.ok (z, s, subs, si) →
        M.scaling = some sc → sc.subScoreMin g = none → sc.subScoreMax g = none →
        subs g = some v → si g = some (scale_0_100 v (rowMin v) (rowMax v)))
    ∧ (∀ scoreRaw : Fin (n + 1) → ℝ, M.scaling = none →
        resolvedScoreBounds M.scaling scoreRaw = (rowMin scoreRaw, rowMax scoreRaw)) := by
  refine ⟨?_, ?_, ?_, ?_⟩
  · intro z hz
    rw [apply_weight_model, hz]
    exact ⟨_, rfl⟩
  · intro z s subs si g v happly hnone hsubs
    obtain ⟨-, -, -, hsi⟩ := apply_ok_inv happly
    rw [hsi]
    simp only [hsubs, Option.map_some, hnone]
    rfl
  · intro z s subs si g v sc happly hsome hmin hmax hsubs
    obtain ⟨-, -, -, hsi⟩ := apply_ok_inv happly
    rw [hsi]
    simp only [hsubs, Option.map_some, hsome, Option.some_bind, hmin, hmax, Option.getD_none]
    rfl
  · intro scoreRaw hnone
    rw [resolvedScoreBounds, hnone]
    rfl

/-- C1: train/apply round trip.  For every training matrix, direction
vector, indicator list and method for which `train_weight_model`
succeeds (with pairwise-distinct indicator keys, the documented
invariant of the data model), applying the resulting model record to
the same matrix and directions succeeds and yields exactly the
standardized matrix, raw score vector and per-group sub-scores computed
during training — the stored standardization parameters and weights
reproduce the training-time scores. -/
theorem C1_train_apply_roundtrip {n p : ℕ} {method : Method} {keys : Fin p → String}
    {inds : List Ind} {x_train : Mat (n + 1) p} {directions : Fin p → Direction}
    {pe : Fin p → ℝ} {pv : Fin p → Fin p → ℝ} {t : ℝ} {am : Fin p → Fin p → ℝ}
    {ae : Fin p → ℂ} {av : Fin p → Fin p → ℂ}
    {out : Mat (n + 1) p × (Fin p → ℝ) × Standardization
      × Option (ℕ × ℝ × ℝ) × Option (ℝ × ℝ × ℝ)} {M : Model p}
    (hinj : Function.Injective keys)
    (hcore : trainCore method keys x_train directions pe pv t am ae av = Except.ok out)
    (hM : train_weight_model method keys inds x_train directions pe pv t am ae av
      = Except.ok M) :
    ∃ si, apply_weight_model M inds x_train directions = Except.ok
      (out.1,
       (compute_scores out.1 keys inds (dictOfFn keys out.2.1)).scoreRaw,
       (compute_scores out.1 keys inds (dictOfFn keys out.2.1)).subScores,
       si) :=
  apply_model_of_train hinj hcore hM

/-- C2: for every successful call of `train_weight_model`, whichever of
the three methods is used, the weights map sums to 1 (exactly, over the
real model of floats); and when every indicator key appears in the
indicator list (exactly once — keys are unique by the data model), the
`dimension2Weights` map also sums to 1. -/
theorem C2_weight_sums {n p : ℕ} {method : Method} {keys : Fin p → String}
    {inds : List Ind} {x_train : Mat (n + 1) p} {directions : Fin p → Direction}
    {pe : Fin p → ℝ} {pv : Fin p → Fin p → ℝ} {t : ℝ} {am : Fin p → Fin p → ℝ}
    {ae : Fin p → ℂ} {av : Fin p → Fin p → ℂ} {M : Model p}
    (hinj : Function.Injective keys)
    (hM : train_weight_model method keys inds x_train directions pe pv t am ae av
      = Except.ok M) :
    dvalsSum M.weights = 1
    ∧ ((inds.map Ind.key).Nodup → (∀ j, keys j ∈ inds.map Ind.key) →
        dvalsSum M.dimension2Weights = 1) := by
  obtain ⟨core, hcore, hMeq⟩ := train_ok_iff.mp hM
  subst hMeq
  have hsum := trainCore_weights_sum hcore
  constructor
  · show dvalsSum (dictOfFn keys core.2.1) = 1
    rw [dvalsSum_dictOfFn _ hinj]
    exact hsum
  · intro hnd hcov
    show dvalsSum (build_dimension2_weights inds (dictOfFn keys core.2.1)) = 1
    rw [dvalsSum_build_dimension2_weights]
    have hmm : inds.map (fun i => dget0 (dictOfFn keys core.2.1) i.key)
        = (inds.map Ind.key).map (fun k => dget0 (dictOfFn keys core.2.1) k) := by
      rw [List.map_map]
      rfl
    rw [hmm, sum_map_dget0_dictOfFn _ hinj _ hnd hcov]
    exact hsum

/-- C4: PCA component selection.  Under the success conditions (at least
2 rows and a positive clipped eigenvalue total), the recorded component
count `k` is one more than the least 0-based index whose cumulative
explained-variance ratio reaches the threshold (equivalently: the
smallest 1-based count whose ratio reaches it), clamped to `[1, p]` with
`k = p` when no index reaches the threshold; and the recorded cumulative
diagnostic is the ratio at the selected count. -/
theorem C4_pca_component_selection {p : ℕ} {nrows : ℕ} {eigvals : Fin p → ℝ}
    {eigvecs : Fin p → Fin p → ℝ} {t : ℝ} {r : PcaResult p}
    (h : pcaWeights nrows eigvals eigvecs t = Except.ok r) :
    (1 ≤ r.k ∧ r.k ≤ p)
    ∧ r.k = (if h2 : ∃ l, l < p ∧ t ≤ pcaCum eigvals l then Nat.find h2 + 1 else p)
    ∧ r.cumulative = pcaCum eigvals (r.k - 1) := by
  obtain ⟨hn, htot, hw, rfl⟩ := pcaWeights_ok_iff.mp h
  have hp : 0 < p := by
    by_contra hp0
    push_neg at hp0
    interval_cases p
    rw [Finset.univ_eq_empty, Finset.sum_empty] at htot
    exact absurd htot (lt_irrefl 0)
  have hk := pcaK_eq eigvals t hp htot
  refine ⟨?_, hk, rfl⟩
  show 1 ≤ pcaK eigvals t ∧ pcaK eigvals t ≤ p
  rw [pcaK]
  omega

/-- C5: AHP weighting.  A non-square comparison matrix raises
`NonSquareMatrix`; for a square one the weight vector is the real part
of the eigenvector column selected at the (first) eigenvalue of largest
real part, with each negative entry sign-flipped (elementwise absolute
value, making all entries non-negative) and normalized to sum 1; a
flipped vector summing to 0 raises `ZeroWeightVector`. -/
theorem C5_ahp_weights {r c : ℕ} (m : Fin r → Fin c → ℝ) (eigvals : Fin c → ℂ)
    (eigvecs : Fin c → Fin c → ℂ) :
    (r ≠ c → ahpWeights m eigvals eigvecs = Except.error CErr.ahpNonSquareMatrix)
    ∧ (∀ hc : 0 < c,
        (∀ i, (eigvals i).re ≤ (eigvals (ahpArgmax hc eigvals)).re)
        ∧ (∀ j, ahpVec hc eigvals eigvecs j = |(eigvecs j (ahpArgmax hc eigvals)).re|)
        ∧ (r = c → (∑ j, ahpVec hc eigvals eigvecs j) = 0 →
            ahpWeights m eigvals eigvecs = Except.error CErr.ahpZeroWeightVector)
        ∧ (r = c → (∑ j, ahpVec hc eigvals eigvecs j) ≠ 0 →
            ∃ lm ci cr, ahpWeights m eigvals eigvecs = Except.ok
              (fun j => ahpVec hc eigvals eigvecs j / ∑ j, ahpVec hc eigvals eigvecs j,
                lm, ci, cr)
              ∧ lm = (eigvals (ahpArgmax hc eigvals)).re)) := by
  constructor
  · intro hne
    rw [ahpWeights, if_pos (by simpa using hne)]
  · intro hc
    refine ⟨?_, ?_, ?_, ?_⟩
    · intro i
      have hmem : ahpArgmax hc eigvals
          ∈ Finset.univ.filter (fun i : Fin c => ∀ l, (eigvals l).re ≤ (eigvals i).re) := by
        rw [ahpArgmax]
        exact Finset.min'_mem _ _
      exact (Finset.mem_filter.mp hmem).2 i
    · intro j
      rw [ahpVec]
      rcases le_or_lt 0 ((eigvecs j (ahpArgmax hc eigvals)).re) with hge | hlt
      · rw [if_neg (not_lt.mpr hge), abs_of_nonneg hge]
      · rw [if_pos hlt, abs_of_neg hlt]
    · intro hrc hzero
      rw [ahpWeights, if_neg (by simpa using hrc), dif_neg (Nat.pos_iff_ne_zero.mp hc),
        if_pos hzero]
    · intro hrc hne
      refine ⟨ahpLambdaMax hc eigvals, ahpCI hc eigvals, ahpCR hc eigvals, ?_, rfl⟩
      rw [ahpWeights, if_neg (by simpa using hrc), dif_neg (Nat.pos_iff_ne_zero.mp hc),
        if_neg hne]

/-- C10: every weight vector produced by any of the three weighting
algorithms is entrywise non-negative (entropy on its documented
non-negative standardized input), and group weights accumulated from
non-negative weights are non-negative too. -/
theorem C10_weights_nonneg :
    (∀ {n p : ℕ} (z : Mat n p) (w : Fin p → ℝ), (∀ i j, 0 ≤ z i j) →
        entropyWeights z = Except.ok w → ∀ j, 0 ≤ w j)
    ∧ (∀ {p : ℕ} (nrows : ℕ) (eigvals : Fin p → ℝ) (eigvecs : Fin p → Fin p → ℝ) (t : ℝ)
        (r : PcaResult p), pcaWeights nrows eigvals eigvecs t = Except.ok r →
        ∀ j, 0 ≤ r.weights j)
    ∧ (∀ {r c : ℕ} (m : Fin r → Fin c → ℝ) (eigvals : Fin c → ℂ)
        (eigvecs : Fin c → Fin c → ℂ) (out : (Fin c → ℝ) × ℝ × ℝ × ℝ),
        ahpWeights m eigvals eigvecs = Except.ok out → ∀ j, 0 ≤ out.1 j)
    ∧ (∀ (indicators : List Ind) (weights : Dict), (∀ q ∈ weights, 0 ≤ q.2) →
        ∀ q ∈ build_dimension2_weights indicators weights, 0 ≤ q.2) := by
  refine ⟨?_, ?_, ?_, ?_⟩
  · intro n p z w hz h j
    exact entropyWeights_nonneg hz h j
  · intro p nrows eigvals eigvecs t r h j
    exact pcaWeights_nonneg h j
  · intro r c m eigvals eigvecs out h j
    exact ahpWeights_nonneg h j
  · intro indicators weights hw q hq
    exact build_dimension2_weights_nonneg indicators hw q hq

/-! ## A concrete 2×1 entropy training example (used by witnesses) -/

def ex1Keys : Fin 1 → String := fun _ => "a"

noncomputable def ex1X : Mat 2 1 := fun i _ => if i = 0 then 0 else 1

def ex1Inds : List Ind := [⟨"a", "", Direction.positive⟩]

def ex1Dirs : Fin 1 → Direction := fun _ => Direction.positive

theorem ex1_inj : Function.Injective ex1Keys := fun a b _ => Subsingleton.elim a b

theorem ex1_applyDirection : applyDirection ex1X ex1Dirs = ex1X := by
  funext i j
  simp [applyDirection, ex1Dirs]

theorem ex1_colMin : colMin ex1X = fun _ => 0 := by
  funext j
  apply le_antisymm
  · have h0 : ex1X 0 j = 0 := by simp [ex1X]
    exact (Finset.inf'_le _ (Finset.mem_univ 0)).trans_eq h0
  · apply Finset.le_inf'
    intro i _
    fin_cases i <;> simp [ex1X]

theorem ex1_colMax : colMax ex1X = fun _ => 1 := by
  funext j
  apply le_antisymm
  · apply Finset.sup'_le
    intro i _
    fin_cases i <;> simp [ex1X]
  · have h1 : ex1X 1 j ≤ colMax ex1X j :=
      Finset.le_sup' (fun i => ex1X i j) (Finset.mem_univ (1 : Fin 2))
    have h2 : ex1X 1 j = 1 := by simp [ex1X]
    rw [h2] at h1
    exact h1

theorem ex1_minmax : minmaxTransform ex1X (colMin ex1X) (colMax ex1X) = Except.ok ex1X := by
  rw [ex1_colMin, ex1_colMax, minmaxTransform, if_neg (by norm_num)]
  congr 1
  funext i j
  norm_num

theorem ex1_entropy : entropyWeights ex1X = Except.ok (fun _ => 1) := by
  have hcs : ∀ j, entColSum ex1X j = 1 := by
    intro j
    simp [entColSum, Fin.sum_univ_two, ex1X]
  have hadj : ∀ j, entColSumAdj ex1X j = 1 := by
    intro j
    rw [entColSumAdj, hcs, if_neg (by norm_num)]
  have hp0 : ∀ j, entPij ex1X 0 j = 0 := by
    intro j
    simp [entPij, hadj, ex1X]
  have hp1 : ∀ j, entPij ex1X 1 j = 1 := by
    intro j
    simp [entPij, hadj, ex1X]
  have hD : ∀ j, entD ex1X j = 1 := by
    intro j
    have hsum : (∑ i, entPij ex1X i j * entLogp ex1X i j) = 0 := by
      rw [Fin.sum_univ_two]
      simp only [entLogp, hp0, hp1]
      norm_num [Real.log_one]
    simp only [entD, entE, hsum, mul_zero]
    norm_num
  have htot : (∑ j, entD ex1X j) = 1 := by
    rw [Fin.sum_univ_one, hD]
  rw [entropyWeights, if_neg (by rw [htot]; norm_num)]
  congr 1
  funext j
  rw [hD, htot]
  norm_num

/-- The method-dispatch output of the example training run. -/
noncomputable def ex1Out : Mat 2 1 × (Fin 1 → ℝ) × Standardization
    × Option (ℕ × ℝ × ℝ) × Option (ℝ × ℝ × ℝ) :=
  (ex1X, fun _ => 1,
    Standardization.minmax (dictOfFn ex1Keys (fun _ => 0)) (dictOfFn ex1Keys (fun _ => 1)),
    none, none)

theorem ex1_trainCore : trainCore Method.entropy ex1Keys ex1X ex1Dirs
    (fun _ => 0) (fun _ _ => 0) 0.85 (fun _ _ => 0) (fun _ => 0) (fun _ _ => 0)
    = Except.ok ex1Out := by
  apply trainCore_entropy_ok_iff.mpr
  refine ⟨ex1X, fun _ => 1, ?_, ?_, ?_⟩
  · rw [ex1_applyDirection]
    exact ex1_minmax
  · exact ex1_entropy
  · rw [ex1Out, ex1_applyDirection, ex1_colMin, ex1_colMax]

/-- The model record trained in the example run. -/
noncomputable def ex1Model : Model 1 := assembleModel Method.entropy ex1Keys ex1Inds ex1Out

theorem ex1_train : train_weight_model Method.entropy ex1Keys ex1Inds ex1X ex1Dirs
    (fun _ => 0) (fun _ _ => 0) 0.85 (fun _ _ => 0) (fun _ => 0) (fun _ _ => 0)
    = Except.ok ex1Model :=
  train_ok_iff.mpr ⟨ex1Out, ex1_trainCore, rfl⟩

/-- Witness for C1: the 2×1 entropy model applied back to its training
matrix reproduces the training-time outputs. -/
theorem C1_train_apply_roundtrip_witness :
    train_weight_model Method.entropy ex1Keys ex1Inds ex1X ex1Dirs
      (fun _ => 0) (fun _ _ => 0) 0.85 (fun _ _ => 0) (fun _ => 0) (fun _ _ => 0)
      = Except.ok ex1Model
    ∧ ∃ si, apply_weight_model ex1Model ex1Inds ex1X ex1Dirs = Except.ok
        (ex1Out.1,
         (compute_scores ex1Out.1 ex1Keys ex1Inds (dictOfFn ex1Keys ex1Out.2.1)).scoreRaw,
         (compute_scores ex1Out.1 ex1Keys ex1Inds (dictOfFn ex1Keys ex1Out.2.1)).subScores,
         si) :=
  ⟨ex1_train, C1_train_apply_roundtrip ex1_inj ex1_trainCore ex1_train⟩

/-- Witness for C2: both weight sums are 1 on the trained example. -/
theorem C2_weight_sums_witness :
    dvalsSum ex1Model.weights = 1 ∧ dvalsSum ex1Model.dimension2Weights = 1 := by
  have h := C2_weight_sums ex1_inj ex1_train
  refine ⟨h.1, h.2 ?_ ?_⟩
  · simp [ex1Inds]
  · intro j
    simp [ex1Inds, ex1Keys]

/-- The example model with its scaling entry stripped, for the C9
witness. -/
noncomputable def ex1ModelNoScaling : Model 1 :=
  { method := Method.entropy
    indicatorKeys := ex1Keys
    weights := dictOfFn ex1Keys (fun _ => 1)
    dimension2Weights := build_dimension2_weights ex1Inds (dictOfFn ex1Keys (fun _ => 1))
    standardization := Standardization.minmax (dictOfFn ex1Keys (fun _ => 0))
      (dictOfFn ex1Keys (fun _ => 1))
    scaling := none
    pcaInfo := none
    ahpInfo := none }

/-- Witness for C9: applying a model with no scaling entry succeeds. -/
theorem C9_missing_bounds_fallback_witness :
    ∃ out, apply_weight_model ex1ModelNoScaling ex1Inds ex1X ex1Dirs = Except.ok out := by
  apply (C9_missing_bounds_fallback ex1ModelNoScaling ex1Inds ex1X ex1Dirs).1 ex1X
  rw [ex1_applyDirection]
  show minmaxTransform ex1X (fun j => dget0 (dictOfFn ex1Keys (fun _ => 0)) (ex1Keys j))
    (fun j => dget0 (dictOfFn ex1Keys (fun _ => 1)) (ex1Keys j)) = Except.ok ex1X
  have hmn : (fun j => dget0 (dictOfFn ex1Keys (fun _ => 0)) (ex1Keys j))
      = (fun _ : Fin 1 => (0 : ℝ)) := funext (fun j => dget0_dictOfFn _ ex1_inj j)
  have hmx : (fun j => dget0 (dictOfFn ex1Keys (fun _ => 1)) (ex1Keys j))
      = (fun _ : Fin 1 => (1 : ℝ)) := funext (fun j => dget0_dictOfFn _ ex1_inj j)
  rw [hmn, hmx]
  have h := ex1_minmax
  rw [ex1_colMin, ex1_colMax] at h
  exact h

/-- Witness for C10: non-negative weights on concrete runs of the
entropy algorithm and the dimension aggregator. -/
theorem C10_weights_nonneg_witness :
    (∃ w, entropyWeights ex1X = Except.ok w ∧ ∀ j, 0 ≤ w j)
    ∧ (∀ q ∈ build_dimension2_weights ex1Inds [("a", 1)], 0 ≤ q.2) := by
  constructor
  · refine ⟨fun _ => 1, ex1_entropy, ?_⟩
    exact C10_weights_nonneg.1 ex1X (fun _ => 1)
      (fun i j => by fin_cases i <;> simp [ex1X]) ex1_entropy
  · exact C10_weights_nonneg.2.2.2 ex1Inds [("a", 1)]
      (by
        intro q hq
        simp only [List.mem_singleton] at hq
        rw [hq]
        norm_num)

/-! ## Concrete PCA and AHP runs (for witnesses) -/

def ex4Ev : Fin 1 → ℝ := fun _ => 2

def ex4Evec : Fin 1 → Fin 1 → ℝ := fun _ _ => 1

theorem ex4_pcaEv : ∀ i, pcaEv ex4Ev i = 2 := by
  intro i
  rw [pcaEv]
  norm_num [ex4Ev]

theorem ex4_tot : (0 : ℝ) < ∑ i, pcaEv ex4Ev i := by
  rw [Fin.sum_univ_one, ex4_pcaEv]
  norm_num

theorem ex4_wpos : (0 : ℝ) < ∑ j, pcaWRaw ex4Ev ex4Evec (pcaK ex4Ev 0.85) j := by
  have hfil : (Finset.univ.filter (fun l : Fin 1 => l.val < pcaK ex4Ev 0.85))
      = Finset.univ := by
    apply Finset.filter_true_of_mem
    intro l _
    have h1 : 1 ≤ pcaK ex4Ev 0.85 := by
      rw [pcaK]
      exact le_max_left 1 _
    omega
  rw [Fin.sum_univ_one, pcaWRaw, hfil, Fin.sum_univ_one, ex4_pcaEv]
  norm_num [ex4Evec]

theorem ex4_ok : pcaWeights 2 ex4Ev ex4Evec 0.85 = Except.ok
    { weights := fun j => pcaWRaw ex4Ev ex4Evec (pcaK ex4Ev 0.85) j
        / ∑ j, pcaWRaw ex4Ev ex4Evec (pcaK ex4Ev 0.85) j
      k := pcaK ex4Ev 0.85
      cumulative := pcaCum ex4Ev (pcaK ex4Ev 0.85 - 1) } :=
  pcaWeights_ok_iff.mpr ⟨by norm_num, ex4_tot, ex4_wpos, rfl⟩

/-- Witness for C4: a successful 1-indicator PCA run whose recorded
component count and cumulative diagnostic satisfy the selection rule. -/
theorem C4_pca_component_selection_witness :
    ∃ r, pcaWeights 2 ex4Ev ex4Evec 0.85 = Except.ok r
      ∧ (1 ≤ r.k ∧ r.k ≤ 1)
      ∧ r.cumulative = pcaCum ex4Ev (r.k - 1) :=
  ⟨_, ex4_ok, (C4_pca_component_selection ex4_ok).1,
    (C4_pca_component_selection ex4_ok).2.2⟩

def ex5Eigvals : Fin 1 → ℂ := fun _ => 1

def ex5Eigvecs : Fin 1 → Fin 1 → ℂ := fun _ _ => 1

/-- Witness for C5: a 2×1 matrix is rejected as non-square, and a 1×1
run returns the normalized sign-flipped eigenvector. -/
theorem C5_ahp_weights_witness :
    ahpWeights (fun _ _ => (0 : ℝ) : Fin 2 → Fin 1 → ℝ) ex5Eigvals ex5Eigvecs
      = Except.error CErr.ahpNonSquareMatrix
    ∧ ∃ lm ci cr, ahpWeights (fun _ _ => (0 : ℝ) : Fin 1 → Fin 1 → ℝ) ex5Eigvals ex5Eigvecs
        = Except.ok (fun j => ahpVec one_pos ex5Eigvals ex5Eigvecs j
            / ∑ j, ahpVec one_pos ex5Eigvals ex5Eigvecs j, lm, ci, cr)
        ∧ lm = (ex5Eigvals (ahpArgmax one_pos ex5Eigvals)).re := by
  constructor
  · exact (C5_ahp_weights (fun _ _ => (0 : ℝ) : Fin 2 → Fin 1 → ℝ) ex5Eigvals
      ex5Eigvecs).1 (by norm_num)
  · have hvec : ∀ j, ahpVec one_pos ex5Eigvals ex5Eigvecs j = 1 := by
      intro j
      simp [ahpVec, ex5Eigvecs, Complex.one_re]
    have hsum : (∑ j, ahpVec one_pos ex5Eigvals ex5Eigvecs j) ≠ 0 := by
      rw [Fin.sum_univ_one, hvec]
      norm_num
    exact ((C5_ahp_weights (fun _ _ => (0 : ℝ) : Fin 1 → Fin 1 → ℝ) ex5Eigvals
      ex5Eigvecs).2 one_pos).2.2.2 rfl hsum

/-! ## The 3×2 entropy end-to-end example of the spec (C8) -/

def ex3Keys : Fin 2 → String := fun j => if j.val = 0 then "i1" else "i2"

/-- The training matrix `[[10,1],[20,2],[30,3]]`. -/
noncomputable def ex3X : Mat 3 2 := fun i j =>
  (if j.val = 0 then (10 : ℝ) else 1) * ((i.val : ℝ) + 1)

def ex3Inds : List Ind :=
  [⟨"i1", "", Direction.positive⟩, ⟨"i2", "", Direction.positive⟩]

def ex3Dirs : Fin 2 → Direction := fun _ => Direction.positive

/-- The standardized training matrix: both columns become `[0, 1/2, 1]`. -/
noncomputable def ex3Z : Mat 3 2 := fun i _ => (i.val : ℝ) / 2

theorem ex3_inj : Function.Injective ex3Keys := by
  intro a b h
  fin_cases a <;> fin_cases b <;> simp_all [ex3Keys]

theorem ex3_applyDirection : applyDirection ex3X ex3Dirs = ex3X := by
  funext i j
  simp [applyDirection, ex3Dirs]

theorem ex3_colMin : colMin ex3X = fun j => if j.val = 0 then (10 : ℝ) else 1 := by
  funext j
  apply le_antisymm
  · have h0 : ex3X 0 j = (if j.val = 0 then (10 : ℝ) else 1) := by
      rw [ex3X]
      norm_num
    exact (Finset.inf'_le _ (Finset.mem_univ 0)).trans_eq h0
  · apply Finset.le_inf'
    intro i _
    rw [ex3X]
    by_cases h : j.val = 0 <;>
      simp only [h, if_true, if_false] <;> fin_cases i <;> norm_num

theorem ex3_colMax : colMax ex3X = fun j => if j.val = 0 then (30 : ℝ) else 3 := by
  funext j
  apply le_antisymm
  · apply Finset.sup'_le
    intro i _
    rw [ex3X]
    by_cases h : j.val = 0 <;>
      simp only [h, if_true, if_false] <;> fin_cases i <;> norm_num
  · have h2 : ex3X 2 j = (if j.val = 0 then (30 : ℝ) else 3) := by
      rw [ex3X]
      by_cases h : j.val = 0 <;> simp only [h, if_true, if_false] <;> norm_num
    have hle : ex3X 2 j ≤ colMax ex3X j :=
      Finset.le_sup' (fun i => ex3X i j) (Finset.mem_univ (2 : Fin 3))
    rw [h2] at hle
    exact hle

theorem ex3_minmax : minmaxTransform ex3X (colMin ex3X) (colMax ex3X) = Except.ok ex3Z := by
  rw [ex3_colMin, ex3_colMax, minmaxTransform, if_neg ?_]
  · congr 1
    funext i j
    by_cases h : j.val = 0
    · simp only [ex3X, ex3Z, h, if_true]
      ring
    · simp only [ex3X, ex3Z, h, if_false]
      ring
  · rintro ⟨j, hj⟩
    by_cases h : j.val = 0
    · rw [if_pos h, if_pos h] at hj
      norm_num at hj
    · rw [if_neg h, if_neg h] at hj
      norm_num at hj

theorem ex3_entropy : entropyWeights ex3Z = Except.ok (fun _ => 1 / 2) := by
  have hL2 : 0 < Real.log 2 := Real.log_pos (by norm_num)
  have hL3 : 0 < Real.log 3 := Real.log_pos (by norm_num)
  have hcs : ∀ j, entColSum ex3Z j = 3 / 2 := by
    intro j
    rw [entColSum, Fin.sum_univ_three]
    simp only [ex3Z]
    norm_num
  have hadj : ∀ j, entColSumAdj ex3Z j = 3 / 2 := by
    intro j
    rw [entColSumAdj, hcs, if_neg (by norm_num)]
  have hpij : ∀ i j, entPij ex3Z i j = (i.val : ℝ) / 3 := by
    intro i j
    rw [entPij, hadj, ex3Z]
    field_simp
  have hT : ∀ j, (∑ i, entPij ex3Z i j * entLogp ex3Z i j)
      = 2 / 3 * Real.log 2 - Real.log 3 := by
    intro j
    rw [Fin.sum_univ_three]
    have hp0 : entPij ex3Z 0 j = 0 := by rw [hpij]; norm_num
    have hp1 : entPij ex3Z 1 j = 1 / 3 := by rw [hpij]; norm_num
    have hp2 : entPij ex3Z 2 j = 2 / 3 := by rw [hpij]; norm_num
    have hl0 : entLogp ex3Z 0 j = 0 := by
      rw [entLogp, hp0, if_neg (by norm_num)]
    have hl1 : entLogp ex3Z 1 j = Real.log (1 / 3) := by
      rw [entLogp, hp1, if_pos (by norm_num)]
    have hl2 : entLogp ex3Z 2 j = Real.log (2 / 3) := by
      rw [entLogp, hp2, if_pos (by norm_num)]
    rw [hp0, hp1, hp2, hl0, hl1, hl2]
    rw [one_div, Real.log_inv, Real.log_div (by norm_num) (by norm_num)]
    ring
  have hD : ∀ j, entD ex3Z j = 2 / 3 * (Real.log 2 / Real.log 3) := by
    intro j
    rw [entD, entE, hT, entK, if_pos (by norm_num)]
    have h3 : ((3 : ℕ) : ℝ) = 3 := by norm_num
    rw [h3]
    field_simp
    ring
  have hTot : (∑ j, entD ex3Z j) = 4 / 3 * (Real.log 2 / Real.log 3) := by
    rw [Fin.sum_univ_two, hD, hD]
    ring
  have hpos : 0 < 4 / 3 * (Real.log 2 / Real.log 3) := by positivity
  rw [entropyWeights, if_neg (by rw [hTot]; exact not_le.mpr hpos)]
  congr 1
  funext j
  rw [hD, hTot]
  have hX : Real.log 2 / Real.log 3 ≠ 0 := ne_of_gt (div_pos hL2 hL3)
  field_simp
  ring

/-- The method-dispatch output of the 3×2 training run. -/
noncomputable def ex3Out : Mat 3 2 × (Fin 2 → ℝ) × Standardization
    × Option (ℕ × ℝ × ℝ) × Option (ℝ × ℝ × ℝ) :=
  (ex3Z, fun _ => 1 / 2,
    Standardization.minmax
      (dictOfFn ex3Keys (fun j => if j.val = 0 then (10 : ℝ) else 1))
      (dictOfFn ex3Keys (fun j => if j.val = 0 then (30 : ℝ) else 3)),
    none, none)

theorem ex3_trainCore : trainCore Method.entropy ex3Keys ex3X ex3Dirs
    (fun _ => 0) (fun _ _ => 0) 0.85 (fun _ _ => 0) (fun _ => 0) (fun _ _ => 0)
    = Except.ok ex3Out := by
  apply trainCore_entropy_ok_iff.mpr
  refine ⟨ex3Z, fun _ => 1 / 2, ?_, ?_, ?_⟩
  · rw [ex3_applyDirection]
    exact ex3_minmax
  · exact ex3_entropy
  · rw [ex3Out, ex3_applyDirection, ex3_colMin, ex3_colMax]

/-- The model record of the 3×2 training run. -/
noncomputable def ex3Model : Model 2 := assembleModel Method.entropy ex3Keys ex3Inds ex3Out

theorem ex3_train : train_weight_model Method.entropy ex3Keys ex3Inds ex3X ex3Dirs
    (fun _ => 0) (fun _ _ => 0) 0.85 (fun _ _ => 0) (fun _ => 0) (fun _ _ => 0)
    = Except.ok ex3Model :=
  train_ok_iff.mpr ⟨ex3Out, ex3_trainCore, rfl⟩

theorem ex3_score : (compute_scores ex3Z ex3Keys ex3Inds
    (dictOfFn ex3Keys (fun _ => 1 / 2))).scoreRaw = fun i => (i.val : ℝ) / 2 := by
  funext i
  show (∑ j, ex3Z i j * wArr (dictOfFn ex3Keys (fun _ => 1 / 2)) ex3Keys j)
    = (i.val : ℝ) / 2
  have hW : ∀ j, wArr (dictOfFn ex3Keys (fun _ => (1 / 2 : ℝ))) ex3Keys j = 1 / 2 := by
    intro j
    exact dget0_dictOfFn (fun _ => (1 / 2 : ℝ)) ex3_inj j
  rw [Fin.sum_univ_two, hW, hW]
  simp only [ex3Z]
  ring

theorem ex3_scoreMin : rowMin (fun i : Fin 3 => (i.val : ℝ) / 2) = 0 := by
  apply le_antisymm
  · have h0 : ((0 : Fin 3).val : ℝ) / 2 = 0 := by norm_num
    exact (Finset.inf'_le _ (Finset.mem_univ 0)).trans_eq h0
  · apply Finset.le_inf'
    intro i _
    positivity

theorem ex3_scoreMax : rowMax (fun i : Fin 3 => (i.val : ℝ) / 2) = 1 := by
  apply le_antisymm
  · apply Finset.sup'_le
    intro i _
    fin_cases i <;> norm_num
  · have h2 : ((2 : Fin 3).val : ℝ) / 2 = 1 := by norm_num
    have hle : ((2 : Fin 3).val : ℝ) / 2 ≤ rowMax (fun i : Fin 3 => (i.val : ℝ) / 2) :=
      Finset.le_sup' (fun i : Fin 3 => (i.val : ℝ) / 2) (Finset.mem_univ (2 : Fin 3))
    rw [h2] at hle
    exact hle

/-- C8: training an entropy model on `[[10,1],[20,2],[30,3]]` with both
directions positive yields weights exactly `[1/2, 1/2]`; applying the
model to the same matrix gives raw scores strictly increasing with the
row index; and scaling those raw scores with the model's frozen
`scoreMin`/`scoreMax` gives index values `[0, 50, 100]`. -/
theorem C8_entropy_end_to_end :
    ∃ M si, train_weight_model Method.entropy ex3Keys ex3Inds ex3X ex3Dirs
        (fun _ => 0) (fun _ _ => 0) 0.85 (fun _ _ => 0) (fun _ => 0) (fun _ _ => 0)
        = Except.ok M
      ∧ dget0 M.weights "i1" = 1 / 2
      ∧ dget0 M.weights "i2" = 1 / 2
      ∧ ∃ s subs, apply_weight_model M ex3Inds ex3X ex3Dirs = Except.ok (ex3Z, s, subs, si)
        ∧ s 0 < s 1 ∧ s 1 < s 2
        ∧ ∃ smin smax, M.scaling.bind Scaling.scoreMin = some smin
          ∧ M.scaling.bind Scaling.scoreMax = some smax
          ∧ scale_0_100 s smin smax 0 = 0
          ∧ scale_0_100 s smin smax 1 = 50
          ∧ scale_0_100 s smin smax 2 = 100 := by
  obtain ⟨si, happly⟩ := apply_model_of_train ex3_inj ex3_trainCore ex3_train
  have hw1 : dget0 ex3Model.weights "i1" = 1 / 2 := by
    have h := dget0_dictOfFn (fun _ => (1 / 2 : ℝ)) ex3_inj 0
    have hk : ex3Keys 0 = "i1" := rfl
    rw [hk] at h
    exact h
  have hw2 : dget0 ex3Model.weights "i2" = 1 / 2 := by
    have h := dget0_dictOfFn (fun _ => (1 / 2 : ℝ)) ex3_inj 1
    have hk : ex3Keys 1 = "i2" := rfl
    rw [hk] at h
    exact h
  refine ⟨ex3Model, si, ex3_train, hw1, hw2, ?_⟩
  refine ⟨(compute_scores ex3Z ex3Keys ex3Inds (dictOfFn ex3Keys (fun _ => 1 / 2))).scoreRaw,
    (compute_scores ex3Z ex3Keys ex3Inds (dictOfFn ex3Keys (fun _ => 1 / 2))).subScores,
    happly, ?_, ?_, ?_⟩
  · rw [ex3_score]
    norm_num
  · rw [ex3_score]
    norm_num
  · refine ⟨0, 1, ?_, ?_, ?_, ?_, ?_⟩
    · show some (rowMin (compute_scores ex3Z ex3Keys ex3Inds
        (dictOfFn ex3Keys (fun _ => 1 / 2))).scoreRaw) = some 0
      rw [ex3_score, ex3_scoreMin]
    · show some (rowMax (compute_scores ex3Z ex3Keys ex3Inds
        (dictOfFn ex3Keys (fun _ => 1 / 2))).scoreRaw) = some 1
      rw [ex3_score, ex3_scoreMax]
    · rw [scale_0_100, if_neg (by norm_num), ex3_score]
      norm_num
    · rw [scale_0_100, if_neg (by norm_num), ex3_score]
      norm_num
    · rw [scale_0_100, if_neg (by norm_num), ex3_score]
      norm_num

end Engine
